import Mathlib

/-!
# Verification of the godb SQL lexer (`src/lex.go`, full scanner variant)

Shallow embedding of the scanner from `src/lex.go` (the variant with string
and number literals, i.e. the file's second copy, which the specification
describes).  Conventions of the embedding:

* The input is a `List Char` of runes.  The Go code tracks byte positions
  (`l.pos`, `l.start`); since those always sit on rune boundaries, the
  embedding tracks rune indices and recovers byte offsets with `byteOff`
  (the sum of the UTF-8 widths of the preceding runes).  `width` stays the
  byte width of the last rune read, as in the source, so that `backup`'s
  `l.width == 1` test keeps its exact meaning.
* The token channel is modelled as the list of items in emission order;
  the consumer (`nextItem`) reads that list front to back.
* Go's `unicode.IsLetter` / `unicode.IsDigit` (used only in `isAlpha` and
  `isAlphaNumeric`) are modelled by their ASCII restrictions
  (`Char.isAlpha` / `Char.isDigit`); every input appearing in the claims
  is ASCII, where the restriction is exact.
* Loops (`acceptRun`, the `scanString` loop, the `run` driver) take an
  explicit fuel argument; the wrappers pass fuel that is proved sufficient
  (`runGo_terminates` below), so the embedding computes by `rfl`/`decide`.
* `fmt.Sprintf`-formatted error messages are kept as structured data
  (`ErrMsg`) carrying exactly the arguments the source passes to `errorf`.
* The `name` field of the Go lexer is used by no code path of this variant
  (no error message mentions it) and is omitted.
-/

namespace GoDb

/-- `itemType` from `src/lex.go`: the closed enumeration of token kinds. -/
inductive itemType where
  | itemError
  | itemEOF
  | itemIdentifier
  | itemString
  | itemNumber
  | itemKeyword
  | itemComma
  | itemStar
  | itemSelect
  | itemFrom
  | itemSemicolon
deriving DecidableEq, Repr

/-- The arguments of each `l.errorf(...)` call in the source, one
constructor per format string, in source order. -/
inductive ErrMsg where
  | notFinishedStatement
  | unrecognizedStartOfStatement (r : Option Char)
  | keywordMismatch (lower upper : Char) (index : Nat) (keyword : List Char) (got : Option Char)
  | badString (sofar : List Char)
  | badNumber (sofar : List Char)
  | badIdentifier (sofar : List Char)
  | unrecognizedAtValueExpr (r : Option Char)
  | unrecognizedAfterValueExpr (r : Option Char)
  | unterminatedStatement
deriving DecidableEq, Repr

/-- The `val` field of an item: the captured input text for ordinary
tokens, the formatted message for error tokens. -/
inductive ItemVal where
  | text (s : List Char)
  | err (m : ErrMsg)
deriving DecidableEq, Repr

/-- `item` from `src/lex.go`: a token handed to the consumer. -/
structure item where
  typ : itemType
  pos : Nat
  val : ItemVal
  line : Nat
deriving DecidableEq, Repr

/-- `lexer` from `src/lex.go` minus the channel (modelled as the returned
item list) and the unused `name` field.  `pos`/`start` are rune indices. -/
structure Lexer where
  input : List Char
  pos : Nat
  start : Nat
  width : Nat
  line : Nat
  startLine : Nat
deriving DecidableEq, Repr

/-- Byte offset of the rune index `i`: total UTF-8 width of the runes
before it.  For ASCII input this is `i` itself. -/
def byteOff (input : List Char) (i : Nat) : Nat :=
  ((input.take i).map Char.utf8Size).sum

/-- `l.input[s:e]` at rune indices `s ≤ e`. -/
def seg (input : List Char) (s e : Nat) : List Char :=
  (input.drop s).take (e - s)

/-- `spaceChars = " \t\r\n"` from the source. -/
def spaceChars : List Char := [' ', '\t', '\r', '\n']

/-- `(*lexer).next`: return the next rune (`none` = `eof`), advancing
`pos` and `line` and recording the rune's byte width. -/
def next (l : Lexer) : Option Char × Lexer :=
  match l.input[l.pos]? with
  | none => (none, { l with width := 0 })
  | some r =>
    (some r, { l with width := r.utf8Size, pos := l.pos + 1,
                      line := if r = '\n' then l.line + 1 else l.line })

/-- `(*lexer).backup`: step back one rune (`pos -= width` in the source;
`width = 0` after an end-of-input `next` makes it a no-op), correcting the
newline count exactly as the source does. -/
def backup (l : Lexer) : Lexer :=
  if l.width = 0 then l
  else
    { l with pos := l.pos - 1,
             line := if l.width = 1 ∧ l.input[l.pos - 1]? = some '\n' then
                       l.line - 1
                     else l.line }

/-- `(*lexer).peek`: `next` followed by `backup`. -/
def peek (l : Lexer) : Option Char × Lexer :=
  match next l with
  | (r, l1) => (r, backup l1)

/-- `(*lexer).emit`: materialize the pending token `[start, pos)` and
reset the pending window. -/
def emit (t : itemType) (l : Lexer) : item × Lexer :=
  (⟨t, byteOff l.input l.start, .text (seg l.input l.start l.pos), l.startLine⟩,
   { l with start := l.pos, startLine := l.line })

/-- The item `(*lexer).errorf` sends: the pending position and start line
with the structured message. -/
def errItem (m : ErrMsg) (l : Lexer) : item :=
  ⟨.itemError, byteOff l.input l.start, .err m, l.startLine⟩

/-- `(*lexer).accept`: consume the next rune iff it is in `valid`
(`strings.ContainsRune` is false for `eof`). -/
def accept (valid : List Char) (l : Lexer) : Bool × Lexer :=
  match next l with
  | (some r, l1) => if valid.contains r then (true, l1) else (false, backup l1)
  | (none, l1) => (false, backup l1)

/-- Loop body of `(*lexer).acceptRun`, with fuel (each iteration consumes
one rune, so `input.length + 1 - pos` iterations always suffice). -/
def acceptRunGo (valid : List Char) : Nat → Lexer → Lexer
  | 0, l => l
  | fuel + 1, l =>
    match next l with
    | (some r, l1) =>
      if valid.contains r then acceptRunGo valid fuel l1 else backup l1
    | (none, l1) => backup l1

/-- `(*lexer).acceptRun`: consume a run of runes from `valid`. -/
def acceptRun (valid : List Char) (l : Lexer) : Lexer :=
  acceptRunGo valid (l.input.length + 1 - l.pos) l

/-- `(*lexer).skipWhitespace`: `acceptRun(spaceChars); start = pos`.
Note that, unlike `emit`/`ignore`, the source does not refresh
`startLine` here. -/
def skipWhitespace (l : Lexer) : Lexer :=
  let l1 := acceptRun spaceChars l
  { l1 with start := l1.pos }

/-- `chars` from `scanIdentifier`. -/
def identChars : List Char :=
  "abcdefghijklmnopqrstuvwxyzABCDEFGHIJKLMNOPQRSTUVWXYZ_".toList

/-- `charsAndDigits` from `scanIdentifier`. -/
def identCharsAndDigits : List Char := identChars ++ "0123456789".toList

/-- `isAlphaNumeric` (ASCII restriction of `unicode.IsLetter` /
`unicode.IsDigit`, see module comment). -/
def isAlphaNumeric (r : Char) : Bool := r = '_' || r.isAlpha || r.isDigit

/-- `isAlpha` (same ASCII restriction). -/
def isAlpha (r : Char) : Bool := r = '_' || r.isAlpha

/-- `isAlphaNumeric` applied to a `next`/`peek` result; false at `eof`
exactly as in Go. -/
def isAlphaNumericOpt : Option Char → Bool
  | some r => isAlphaNumeric r
  | none => false

/-- `(*lexer).scanIdentifier`. -/
def scanIdentifier (l : Lexer) : Bool × Lexer :=
  match accept identChars l with
  | (false, l1) => (false, l1)
  | (true, l1) =>
    let l2 := acceptRun identCharsAndDigits l1
    match peek l2 with
    | (r, l3) =>
      if isAlphaNumericOpt r then (false, (next l3).2)
      else (true, l3)

/-- `digits` alphabets of `scanNumber`. -/
def decDigits : List Char := "0123456789_".toList

def hexDigits : List Char := "0123456789abcdefABCDEF_".toList

def octDigits : List Char := "01234567_".toList

def binDigits : List Char := "01_".toList

/-- `(*lexer).scanNumber`, decomposed into one definition per statement
block of the source; `digits` is the Go local variable of the same name,
fixed at the branch point that selects the alphabet.  `scanNumberFrac` is
the `if l.accept(".")` block, `scanNumberExp` the shared shape of the
`e`/`E` and `p`/`P` exponent blocks, `scanNumberFinal` the trailing
`accept("i")`-then-boundary check. -/
def scanNumberFrac (digits : List Char) (l6 : Lexer) : Lexer :=
  match accept ['.'] l6 with
  | (true, la) => acceptRun digits la
  | (false, la) => la

def scanNumberExp (marker : List Char) (l7 : Lexer) : Lexer :=
  match accept marker l7 with
  | (true, la) => acceptRun decDigits (accept ['+', '-'] la).2
  | (false, la) => la

def scanNumberFinal (l9 : Lexer) : Bool × Lexer :=
  let l10 := (accept ['i'] l9).2
  match peek l10 with
  | (r, l11) => if isAlphaNumericOpt r then (false, (next l11).2) else (true, l11)

def scanNumberTail (digits : List Char) (l5 : Lexer) : Bool × Lexer :=
  let l6 := acceptRun digits l5
  let l7 := scanNumberFrac digits l6
  let l8 := if digits.length = 10 + 1 then scanNumberExp ['e', 'E'] l7 else l7
  let l9 := if digits.length = 16 + 6 + 1 then scanNumberExp ['p', 'P'] l8 else l8
  scanNumberFinal l9

/-- The `if l.accept("0") { if l.accept("xX") ... }` alphabet selection,
entered after `0` was accepted. -/
def scanNumberBase (l2 : Lexer) : Bool × Lexer :=
  match accept ['x', 'X'] l2 with
  | (true, l3) => scanNumberTail hexDigits l3
  | (false, l3) =>
    match accept ['o', 'O'] l3 with
    | (true, l4) => scanNumberTail octDigits l4
    | (false, l4) =>
      match accept ['b', 'B'] l4 with
      | (true, l5) => scanNumberTail binDigits l5
      | (false, l5) => scanNumberTail decDigits l5

def scanNumberBody (l1 : Lexer) : Bool × Lexer :=
  match accept ['0'] l1 with
  | (true, l2) => scanNumberBase l2
  | (false, l2) => scanNumberTail decDigits l2

def scanNumber (l : Lexer) : Bool × Lexer :=
  scanNumberBody (accept ['+', '-'] l).2

/-- The `for` loop of `(*lexer).scanString` (entered after the opening
quote was consumed), with fuel; each iteration consumes at least one
rune. -/
def scanStringGo : Nat → Lexer → Bool × Lexer
  | 0, l => (false, l)
  | fuel + 1, l =>
    match next l with
    | (some r, l1) =>
      if r = '\\' then
        match next l1 with
        | (some r2, l2) => if r2 = '\n' then (false, l2) else scanStringGo fuel l2
        | (none, l2) => (false, l2)
      else if r = '\n' then (false, l1)
      else if r = '\'' then
        match next l1 with
        | (r2, l2) => if r2 = some '\'' then scanStringGo fuel l2 else (true, backup l2)
      else scanStringGo fuel l1
    | (none, l1) => (false, l1)

/-- `(*lexer).scanString`. -/
def scanString (l : Lexer) : Bool × Lexer :=
  match next l with
  | (some r, l1) =>
    if r = '\'' then scanStringGo (l.input.length + 1 - l1.pos) l1
    else (false, backup l1)
  | (none, l1) => (false, backup l1)

/-- The named states of the state machine (the `stateFn` values of the
source). -/
inductive StateTag where
  | startStatement
  | selectKeyword
  | valueExprList
  | fromKeyword
  | fromTableName
  | endOfStatement
deriving DecidableEq, Repr

/-- `lexStartStatement`. -/
def lexStartStatement (l : Lexer) : List item × Option StateTag × Lexer :=
  let l0 := skipWhitespace l
  match next l0 with
  | (none, l1) => ([errItem .notFinishedStatement l1], none, l1)
  | (some r, l1) =>
    if r = 's' ∨ r = 'S' then ([], some .selectKeyword, backup l1)
    else ([errItem (.unrecognizedStartOfStatement (some r)) l1], none, l1)

/-- The rune-matching loop of `createLexKeyword`: walk the zipped
lower/upper variants, consuming one rune per position. -/
def lexKeywordLoop (keyword : List Char) :
    List (Char × Char) → Nat → Lexer → Option ErrMsg × Lexer
  | [], _, l => (none, l)
  | (lo, up) :: rest, index, l =>
    match next l with
    | (r, l1) =>
      if r = some lo ∨ r = some up then lexKeywordLoop keyword rest (index + 1) l1
      else (some (.keywordMismatch lo up index keyword r), l1)

/-- `createLexKeyword`: skip whitespace, match the keyword
case-insensitively rune-by-rune, emit `it` and continue with
`nextAction`. -/
def createLexKeyword (keyword : List Char) (it : itemType) (nextAction : StateTag)
    (l : Lexer) : List item × Option StateTag × Lexer :=
  let lower := keyword.map Char.toLower
  let upper := keyword.map Char.toUpper
  let l0 := skipWhitespace l
  match lexKeywordLoop keyword (lower.zip upper) 0 l0 with
  | (some m, l1) => ([errItem m l1], none, l1)
  | (none, l1) =>
    match emit it l1 with
    | (tok, l2) => ([tok], some nextAction, l2)

/-- Second half of `lexValueExprList` (after one value expression was
emitted, the `emitted` list): skip whitespace and dispatch on `,` /
`f`/`F`. -/
def lexAfterValueExpr (emitted : List item) (l : Lexer) :
    List item × Option StateTag × Lexer :=
  let l0 := skipWhitespace l
  match next l0 with
  | (some r, l1) =>
    if r = ',' then
      match emit .itemComma l1 with
      | (tok, l2) => (emitted ++ [tok], some .valueExprList, l2)
    else if r = 'f' ∨ r = 'F' then (emitted, some .fromKeyword, backup l1)
    else (emitted ++ [errItem (.unrecognizedAfterValueExpr (some r)) l1], none, l1)
  | (none, l1) =>
    (emitted ++ [errItem (.unrecognizedAfterValueExpr none) l1], none, l1)

/-- `lexValueExprList`: first half dispatches one value expression, then
the second half (`lexAfterValueExpr`) decides between another list item
and the `from` keyword. -/
def lexValueExprList (l : Lexer) : List item × Option StateTag × Lexer :=
  let l0 := skipWhitespace l
  match next l0 with
  | (some r, l1) =>
    if r = '*' then
      match emit .itemStar l1 with
      | (tok, l2) => lexAfterValueExpr [tok] l2
    else if r = '\'' then
      let l2 := backup l1
      match scanString l2 with
      | (true, l3) =>
        match emit .itemString l3 with
        | (tok, l4) => lexAfterValueExpr [tok] l4
      | (false, l3) => ([errItem (.badString (seg l3.input l3.start l3.pos)) l3], none, l3)
    else if r = '+' ∨ r = '-' ∨ ('0' ≤ r ∧ r ≤ '9') then
      let l2 := backup l1
      match scanNumber l2 with
      | (true, l3) =>
        match emit .itemNumber l3 with
        | (tok, l4) => lexAfterValueExpr [tok] l4
      | (false, l3) => ([errItem (.badNumber (seg l3.input l3.start l3.pos)) l3], none, l3)
    else if isAlpha r then
      let l2 := backup l1
      match scanIdentifier l2 with
      | (true, l3) =>
        match emit .itemIdentifier l3 with
        | (tok, l4) => lexAfterValueExpr [tok] l4
      | (false, l3) => ([errItem (.badIdentifier (seg l3.input l3.start l3.pos)) l3], none, l3)
    else ([errItem (.unrecognizedAtValueExpr (some r)) l1], none, l1)
  | (none, l1) => ([errItem (.unrecognizedAtValueExpr none) l1], none, l1)

/-- `lexFromTableName`. -/
def lexFromTableName (l : Lexer) : List item × Option StateTag × Lexer :=
  let l0 := skipWhitespace l
  match scanIdentifier l0 with
  | (true, l1) =>
    match emit .itemIdentifier l1 with
    | (tok, l2) => ([tok], some .endOfStatement, l2)
  | (false, l1) => ([errItem (.badIdentifier (seg l1.input l1.start l1.pos)) l1], none, l1)

/-- `lexEndOfStatement`: accept `;`, emit the terminal `itemEOF` token
and halt; otherwise error. -/
def lexEndOfStatement (l : Lexer) : List item × Option StateTag × Lexer :=
  let l0 := skipWhitespace l
  match accept [';'] l0 with
  | (true, l1) =>
    match emit .itemEOF l1 with
    | (tok, l2) => ([tok], none, l2)
  | (false, l1) => ([errItem .unterminatedStatement l1], none, l1)

def selectChars : List Char := "select".toList

def fromChars : List Char := "from".toList

/-- One step of the state machine: the body of the state function named
by `tag` (`lexSelectKeyword`/`lexFromKeyword` are the two
`createLexKeyword` instances of the source). -/
def runState : StateTag → Lexer → List item × Option StateTag × Lexer
  | .startStatement, l => lexStartStatement l
  | .selectKeyword, l => createLexKeyword selectChars .itemSelect .valueExprList l
  | .valueExprList, l => lexValueExprList l
  | .fromKeyword, l => createLexKeyword fromChars .itemFrom .fromTableName l
  | .fromTableName, l => lexFromTableName l
  | .endOfStatement, l => lexEndOfStatement l

/-- `(*lexer).run`: iterate state functions until one returns `nil`,
collecting the emitted items; `none` when the fuel runs out (shown
unreachable for the fuel `lexAll` passes). -/
def runGo : Nat → StateTag → Lexer → Option (List item)
  | 0, _, _ => none
  | fuel + 1, tag, l =>
    match runState tag l with
    | (items, none, _) => some items
    | (items, some tag', l') =>
      match runGo fuel tag' l' with
      | some rest => some (items ++ rest)
      | none => none

/-- The lexer state `lex(name, input)` constructs. -/
def lexInit (input : List Char) : Lexer :=
  ⟨input, 0, 0, 0, 1, 1⟩

/-- The full token stream of a scan of `input`, in the order the consumer
receives it from the channel. -/
def lexAll (input : List Char) : List item :=
  (runGo (input.length + 7) .startStatement (lexInit input)).getD []

end GoDb

namespace GoDb

/-! ## Concrete scans used by the claims -/

/-- C1: scanning `"select * from t;"` yields exactly
`Select("select"), Star("*"), From("from"), Identifier("t"), EndOfInput`,
in that order, with byte offsets 0, 7, 9, 14, 15 — each the position of
the token's text in the input. -/
theorem C1_roundtrip :
    lexAll "select * from t;".toList =
      [⟨.itemSelect, 0, .text "select".toList, 1⟩,
       ⟨.itemStar, 7, .text "*".toList, 1⟩,
       ⟨.itemFrom, 9, .text "from".toList, 1⟩,
       ⟨.itemIdentifier, 14, .text "t".toList, 1⟩,
       ⟨.itemEOF, 15, .text ";".toList, 1⟩] := by decide

end GoDb

namespace GoDb

/-- C6: each of the value expressions `11`, `+3.5`, `0xFF`, `0b101`,
`1e10`, `0x1p4` scans as a single Number token spanning the full literal,
while `12abc` makes `scanNumber` fail on the trailing alphanumeric rune
(after it has consumed `12a`) and the scan ends with a bad-number Error
token. -/
theorem C6_number_grammar :
    lexAll "select 11 from t;".toList =
      [⟨.itemSelect, 0, .text "select".toList, 1⟩,
       ⟨.itemNumber, 7, .text "11".toList, 1⟩,
       ⟨.itemFrom, 10, .text "from".toList, 1⟩,
       ⟨.itemIdentifier, 15, .text "t".toList, 1⟩,
       ⟨.itemEOF, 16, .text ";".toList, 1⟩] ∧
    lexAll "select +3.5 from t;".toList =
      [⟨.itemSelect, 0, .text "select".toList, 1⟩,
       ⟨.itemNumber, 7, .text "+3.5".toList, 1⟩,
       ⟨.itemFrom, 12, .text "from".toList, 1⟩,
       ⟨.itemIdentifier, 17, .text "t".toList, 1⟩,
       ⟨.itemEOF, 18, .text ";".toList, 1⟩] ∧
    lexAll "select 0xFF from t;".toList =
      [⟨.itemSelect, 0, .text "select".toList, 1⟩,
       ⟨.itemNumber, 7, .text "0xFF".toList, 1⟩,
       ⟨.itemFrom, 12, .text "from".toList, 1⟩,
       ⟨.itemIdentifier, 17, .text "t".toList, 1⟩,
       ⟨.itemEOF, 18, .text ";".toList, 1⟩] ∧
    lexAll "select 0b101 from t;".toList =
      [⟨.itemSelect, 0, .text "select".toList, 1⟩,
       ⟨.itemNumber, 7, .text "0b101".toList, 1⟩,
       ⟨.itemFrom, 13, .text "from".toList, 1⟩,
       ⟨.itemIdentifier, 18, .text "t".toList, 1⟩,
       ⟨.itemEOF, 19, .text ";".toList, 1⟩] ∧
    lexAll "select 1e10 from t;".toList =
      [⟨.itemSelect, 0, .text "select".toList, 1⟩,
       ⟨.itemNumber, 7, .text "1e10".toList, 1⟩,
       ⟨.itemFrom, 12, .text "from".toList, 1⟩,
       ⟨.itemIdentifier, 17, .text "t".toList, 1⟩,
       ⟨.itemEOF, 18, .text ";".toList, 1⟩] ∧
    lexAll "select 0x1p4 from t;".toList =
      [⟨.itemSelect, 0, .text "select".toList, 1⟩,
       ⟨.itemNumber, 7, .text "0x1p4".toList, 1⟩,
       ⟨.itemFrom, 13, .text "from".toList, 1⟩,
       ⟨.itemIdentifier, 18, .text "t".toList, 1⟩,
       ⟨.itemEOF, 19, .text ";".toList, 1⟩] ∧
    lexAll "select 12abc from t;".toList =
      [⟨.itemSelect, 0, .text "select".toList, 1⟩,
       ⟨.itemError, 7, .err (.badNumber "12a".toList), 1⟩] := by
  refine ⟨by decide, by decide, by decide, by decide, by decide, by decide, by decide⟩

/-- C4 (code bug exhibit): on `"select\n* from t;"` the Star token starts
at byte offset 7, after one `'\n'`, so the claimed line number is
`1 + 1 = 2`; the scanner emits it with `line = 1`, because
`skipWhitespace` advances `start` past the newline without refreshing
`startLine`. -/
theorem C4_stale_startLine :
    (lexAll "select\n* from t;".toList).get? 1 =
      some ⟨.itemStar, 7, .text "*".toList, 1⟩ ∧
    ("select\n* from t;".toList.take 7).count '\n' = 1 := by
  refine ⟨by decide, by decide⟩

/-- C5 (counterexample): a failing `scanIdentifier` run at a digit leaves
the cursor exactly where it started — the sub-scanner fails on input
`"5x"` and the position is restored to 0, contradicting the claim that on
failure the cursor position is not restored. -/
theorem C5_counterexample :
    (scanIdentifier (lexInit "5x".toList)).1 = false ∧
    (scanIdentifier (lexInit "5x".toList)).2.pos = (lexInit "5x".toList).pos := by
  refine ⟨by decide, by decide⟩

end GoDb

namespace GoDb

/-! ## Basic cursor lemmas -/

/-- The byte width recorded after reading the rune at `p` (0 at end of
input), used to characterize cursor operations. -/
def widthAt (input : List Char) (p : Nat) : Nat :=
  match input[p]? with
  | some r => r.utf8Size
  | none => 0

theorem next_none {l : Lexer} (h : l.input[l.pos]? = none) :
    next l = (none, { l with width := 0 }) := by
  simp [next, h]

theorem next_some {l : Lexer} {r : Char} (h : l.input[l.pos]? = some r) :
    next l = (some r, { l with width := r.utf8Size, pos := l.pos + 1,
                                line := if r = '\n' then l.line + 1 else l.line }) := by
  simp [next, h]

theorem backup_after_some {l : Lexer} {r : Char} (h : l.input[l.pos]? = some r) :
    backup { l with width := r.utf8Size, pos := l.pos + 1,
                    line := if r = '\n' then l.line + 1 else l.line } =
      { l with width := r.utf8Size } := by
  have hw : r.utf8Size ≠ 0 := by have := Char.utf8Size_pos r; omega
  unfold backup
  simp only [hw, if_false, Nat.add_sub_cancel]
  by_cases hnl : r = '\n'
  · subst hnl
    have h1 : '\n'.utf8Size = 1 := by decide
    simp [h, h1]
  · have hcond : ¬ (r.utf8Size = 1 ∧ l.input[l.pos]? = some '\n') := by
      rintro ⟨-, hc⟩
      rw [h] at hc
      exact hnl (Option.some.inj hc)
    simp [hnl, hcond]

theorem backup_of_width_zero {l : Lexer} (h : l.width = 0) : backup l = l := by
  simp [backup, h]

theorem peek_eq (l : Lexer) :
    peek l = (l.input[l.pos]?, { l with width := widthAt l.input l.pos }) := by
  cases h : l.input[l.pos]? with
  | none =>
    simp [peek, next_none h, widthAt, h, backup_of_width_zero]
  | some r =>
    simp [peek, next_some h, backup_after_some h, widthAt, h]

theorem accept_none {valid : List Char} {l : Lexer} (h : l.input[l.pos]? = none) :
    accept valid l = (false, { l with width := 0 }) := by
  simp [accept, next_none h, backup_of_width_zero]

theorem accept_mem {valid : List Char} {l : Lexer} {r : Char}
    (h : l.input[l.pos]? = some r) (hm : r ∈ valid) :
    accept valid l = (true, { l with width := r.utf8Size, pos := l.pos + 1,
                                     line := if r = '\n' then l.line + 1 else l.line }) := by
  simp [accept, next_some h, hm]

theorem accept_not_mem {valid : List Char} {l : Lexer} {r : Char}
    (h : l.input[l.pos]? = some r) (hm : r ∉ valid) :
    accept valid l = (false, { l with width := r.utf8Size }) := by
  simp [accept, next_some h, hm, backup_after_some h]

end GoDb

namespace GoDb

/-! ## `acceptRun` and `skipWhitespace` characterization -/

/-- The maximal run of `valid` runes starting at position `p`. -/
def runAt (valid input : List Char) (p : Nat) : List Char :=
  (input.drop p).takeWhile (fun c => valid.contains c)

/-- Length of that run. -/
def runLen (valid input : List Char) (p : Nat) : Nat :=
  (runAt valid input p).length

theorem runLen_le (valid input : List Char) (p : Nat) :
    runLen valid input p ≤ input.length - p := by
  have h := (List.takeWhile_prefix (l := input.drop p)
    (fun c => valid.contains c)).length_le
  simpa [runLen, runAt, List.length_drop] using h

theorem runAt_of_none (valid : List Char) {input : List Char} {p : Nat}
    (h : input[p]? = none) :
    runAt valid input p = [] := by
  have : input.length ≤ p := by
    by_contra hlt
    push_neg at hlt
    rw [List.getElem?_eq_getElem hlt] at h
    exact Option.noConfusion h
  simp [runAt, List.drop_eq_nil_of_le this]

theorem runAt_cons_of_mem {valid input : List Char} {p : Nat} {r : Char}
    (h : input[p]? = some r) (hm : r ∈ valid) :
    runAt valid input p = r :: runAt valid input (p + 1) := by
  obtain ⟨hlt, he⟩ := List.getElem?_eq_some.mp h
  rw [runAt, List.drop_eq_getElem_cons hlt, he,
    List.takeWhile_cons_of_pos (by simpa using hm)]
  rfl

theorem runAt_nil_of_not_mem {valid input : List Char} {p : Nat} {r : Char}
    (h : input[p]? = some r) (hm : r ∉ valid) :
    runAt valid input p = [] := by
  obtain ⟨hlt, he⟩ := List.getElem?_eq_some.mp h
  rw [runAt, List.drop_eq_getElem_cons hlt, he,
    List.takeWhile_cons_of_neg (by simpa using hm)]

theorem acceptRunGo_eq (valid : List Char) :
    ∀ (fuel : Nat) (l : Lexer), l.pos ≤ l.input.length →
      l.input.length - l.pos < fuel →
      acceptRunGo valid fuel l =
        { l with pos := l.pos + runLen valid l.input l.pos,
                 width := widthAt l.input (l.pos + runLen valid l.input l.pos),
                 line := l.line + (runAt valid l.input l.pos).count '\n' } := by
  intro fuel
  induction fuel with
  | zero => intro l h hf; omega
  | succ fuel ih =>
    intro l h hf
    cases hr : l.input[l.pos]? with
    | none =>
      have hrun := runAt_of_none valid hr
      simp [acceptRunGo, next_none hr, backup_of_width_zero, runLen, hrun,
        widthAt, hr]
    | some r =>
      have hlt : l.pos < l.input.length := (List.getElem?_eq_some.mp hr).1
      by_cases hm : r ∈ valid
      · have hrun := runAt_cons_of_mem hr hm
        have hstep : acceptRunGo valid (fuel + 1) l =
            acceptRunGo valid fuel
              { l with width := r.utf8Size, pos := l.pos + 1,
                       line := if r = '\n' then l.line + 1 else l.line } := by
          simp [acceptRunGo, next_some hr, hm]
        rw [hstep, ih _ (by simpa using hlt) (by simp; omega)]
        simp only [runLen, hrun, List.length_cons, List.count_cons]
        have ha : l.pos + 1 + (runAt valid l.input (l.pos + 1)).length =
            l.pos + ((runAt valid l.input (l.pos + 1)).length + 1) := by omega
        have hline : (if r = '\n' then l.line + 1 else l.line) +
              List.count '\n' (runAt valid l.input (l.pos + 1)) =
            l.line + (List.count '\n' (runAt valid l.input (l.pos + 1)) +
              if (r == '\n') = true then 1 else 0) := by
          split_ifs <;> simp_all <;> omega
        rw [ha, hline]
      · have hrun := runAt_nil_of_not_mem hr hm
        simp [acceptRunGo, next_some hr, hm, backup_after_some hr, runLen, hrun,
          widthAt, hr]

theorem acceptRun_eq (valid : List Char) (l : Lexer) (h : l.pos ≤ l.input.length) :
    acceptRun valid l =
      { l with pos := l.pos + runLen valid l.input l.pos,
               width := widthAt l.input (l.pos + runLen valid l.input l.pos),
               line := l.line + (runAt valid l.input l.pos).count '\n' } :=
  acceptRunGo_eq valid _ l h (by omega)

theorem skipWhitespace_eq (l : Lexer) (h : l.pos ≤ l.input.length) :
    skipWhitespace l =
      { l with pos := l.pos + runLen spaceChars l.input l.pos,
               start := l.pos + runLen spaceChars l.input l.pos,
               width := widthAt l.input (l.pos + runLen spaceChars l.input l.pos),
               line := l.line + (runAt spaceChars l.input l.pos).count '\n' } := by
  rw [skipWhitespace, acceptRun_eq spaceChars l h]

end GoDb

namespace GoDb

/-! ## Run membership, whitespace gaps, character classes -/

theorem takeWhile_index (xs : List Char) {P : Char → Bool} :
    ∀ {j : Nat}, j < (xs.takeWhile P).length → ∃ c, xs[j]? = some c ∧ P c = true := by
  induction xs with
  | nil => intro j h; simp at h
  | cons x xs ih =>
    intro j h
    by_cases hp : P x
    · rw [List.takeWhile_cons_of_pos hp] at h
      cases j with
      | zero => exact ⟨x, by simp, hp⟩
      | succ j =>
        obtain ⟨c, h1, h2⟩ := ih (Nat.lt_of_succ_lt_succ (by simpa using h))
        exact ⟨c, by simpa using h1, h2⟩
    · rw [List.takeWhile_cons_of_neg hp] at h
      simp at h

theorem takeWhile_stop (xs : List Char) {P : Char → Bool} {c : Char}
    (h : xs[(xs.takeWhile P).length]? = some c) : P c = false := by
  induction xs with
  | nil => simp at h
  | cons x xs ih =>
    by_cases hp : P x
    · rw [List.takeWhile_cons_of_pos hp] at h
      exact ih (by simpa using h)
    · rw [List.takeWhile_cons_of_neg hp] at h
      simp only [List.length_nil, List.getElem?_cons_zero, Option.some.injEq] at h
      subst h
      simpa using hp

theorem runAt_index (valid input : List Char) {p j : Nat}
    (hj : j < runLen valid input p) : ∃ c, input[p + j]? = some c ∧ c ∈ valid := by
  obtain ⟨c, h1, h2⟩ := takeWhile_index (input.drop p) hj
  rw [List.getElem?_drop] at h1
  exact ⟨c, h1, by simpa using h2⟩

theorem runAt_boundary {valid input : List Char} {p : Nat} {c : Char}
    (h : input[p + runLen valid input p]? = some c) : c ∉ valid := by
  have := takeWhile_stop (input.drop p) (P := fun c => valid.contains c)
    (c := c) (by rw [List.getElem?_drop]; exact h)
  simpa using this

theorem runAt_count_nl_zero {valid input : List Char} {p : Nat}
    (h : '\n' ∉ valid) : (runAt valid input p).count '\n' = 0 := by
  rw [List.count_eq_zero]
  intro hmem
  have := List.mem_takeWhile_imp hmem
  simp at this
  exact h this

/-- The whitespace-only gap predicate between positions `a` and `b`. -/
def wsBetween (input : List Char) (a b : Nat) : Prop :=
  ∀ i, a ≤ i → i < b → ∃ c, input[i]? = some c ∧ c ∈ spaceChars

theorem wsBetween_of_le {input : List Char} {a b : Nat} (h : b ≤ a) :
    wsBetween input a b := by
  intro i h1 h2; omega

theorem wsBetween_trans {input : List Char} {a b c : Nat}
    (h1 : wsBetween input a b) (h2 : wsBetween input b c) : wsBetween input a c := by
  intro i hi1 hi2
  by_cases hib : i < b
  · exact h1 i hi1 hib
  · exact h2 i (by omega) hi2

theorem skipWhitespace_ws (l : Lexer) (h : l.pos ≤ l.input.length) :
    wsBetween l.input l.pos (skipWhitespace l).pos := by
  rw [skipWhitespace_eq l h]
  intro i h1 h2
  obtain ⟨c, hc, hm⟩ := runAt_index spaceChars l.input
    (p := l.pos) (j := i - l.pos) (by simp at h2 ⊢; omega)
  have he : l.pos + (i - l.pos) = i := by omega
  rw [he] at hc
  exact ⟨c, hc, hm⟩

theorem char_eq_of_toNat_eq {c d : Char} (h : c.toNat = d.toNat) : c = d := by
  have h2 := congrArg Char.ofNat h
  rwa [Char.ofNat_toNat, Char.ofNat_toNat] at h2

theorem mem_decDigits_of_digit {c : Char} (h1 : '0' ≤ c) (h2 : c ≤ '9') :
    c ∈ decDigits := by
  have hv1 : (48 : Nat) ≤ c.toNat := h1
  have hv2 : c.toNat ≤ 57 := h2
  have hd : decDigits = ['0', '1', '2', '3', '4', '5', '6', '7', '8', '9', '_'] := by decide
  rw [hd]
  simp only [List.mem_cons, List.not_mem_nil, or_false]
  interval_cases hn : c.toNat
  · exact Or.inl (char_eq_of_toNat_eq hn)
  · exact Or.inr (Or.inl (char_eq_of_toNat_eq hn))
  · exact Or.inr (Or.inr (Or.inl (char_eq_of_toNat_eq hn)))
  · exact Or.inr (Or.inr (Or.inr (Or.inl (char_eq_of_toNat_eq hn))))
  · exact Or.inr (Or.inr (Or.inr (Or.inr (Or.inl (char_eq_of_toNat_eq hn)))))
  · exact Or.inr (Or.inr (Or.inr (Or.inr (Or.inr (Or.inl (char_eq_of_toNat_eq hn))))))
  · exact Or.inr (Or.inr (Or.inr (Or.inr (Or.inr (Or.inr (Or.inl (char_eq_of_toNat_eq hn)))))))
  · exact Or.inr (Or.inr (Or.inr (Or.inr (Or.inr (Or.inr (Or.inr (Or.inl
      (char_eq_of_toNat_eq hn))))))))
  · exact Or.inr (Or.inr (Or.inr (Or.inr (Or.inr (Or.inr (Or.inr (Or.inr (Or.inl
      (char_eq_of_toNat_eq hn)))))))))
  · exact Or.inr (Or.inr (Or.inr (Or.inr (Or.inr (Or.inr (Or.inr (Or.inr (Or.inr (Or.inl
      (char_eq_of_toNat_eq hn))))))))))

theorem digit_ne_plus_minus {c : Char} (h1 : '0' ≤ c) (h2 : c ≤ '9') :
    c ∉ (['+', '-'] : List Char) := by
  have hv1 : (48 : Nat) ≤ c.toNat := h1
  intro hm
  simp only [List.mem_cons, List.not_mem_nil, or_false] at hm
  rcases hm with hm | hm
  · subst hm; revert hv1; decide
  · subst hm; revert hv1; decide

/-! ## Cursor advancement -/

/-- State facts preserved by the speculative cursor operations: `input`,
`start` and `startLine` untouched, `pos` advanced but in bounds. -/
def Adv (l l' : Lexer) : Prop :=
  l'.input = l.input ∧ l'.start = l.start ∧ l'.startLine = l.startLine ∧
  l.pos ≤ l'.pos ∧ l'.pos ≤ l.input.length

theorem Adv.trans {a b c : Lexer} (h1 : Adv a b) (h2 : Adv b c) : Adv a c := by
  obtain ⟨e1, e2, e3, e4, e5⟩ := h1
  obtain ⟨f1, f2, f3, f4, f5⟩ := h2
  refine ⟨f1.trans e1, f2.trans e2, f3.trans e3, e4.trans f4, ?_⟩
  rw [e1] at f5
  exact f5

theorem Adv.refl_of_le {l : Lexer} (h : l.pos ≤ l.input.length) : Adv l l :=
  ⟨rfl, rfl, rfl, Nat.le_refl _, h⟩

theorem next_adv {l : Lexer} (h : l.pos ≤ l.input.length) : Adv l (next l).2 := by
  cases hr : l.input[l.pos]? with
  | none => rw [next_none hr]; exact ⟨rfl, rfl, rfl, Nat.le_refl _, h⟩
  | some r =>
    have hlt : l.pos < l.input.length := (List.getElem?_eq_some.mp hr).1
    rw [next_some hr]
    exact ⟨rfl, rfl, rfl, by dsimp only; omega, by dsimp only; omega⟩

theorem accept_adv (valid : List Char) {l : Lexer} (h : l.pos ≤ l.input.length) :
    Adv l (accept valid l).2 := by
  cases hr : l.input[l.pos]? with
  | none => rw [accept_none hr]; exact ⟨rfl, rfl, rfl, Nat.le_refl _, h⟩
  | some r =>
    have hlt : l.pos < l.input.length := (List.getElem?_eq_some.mp hr).1
    by_cases hm : r ∈ valid
    · rw [accept_mem hr hm]
      exact ⟨rfl, rfl, rfl, by dsimp only; omega, by dsimp only; omega⟩
    · rw [accept_not_mem hr hm]
      exact ⟨rfl, rfl, rfl, Nat.le_refl _, h⟩

theorem acceptRun_adv (valid : List Char) {l : Lexer} (h : l.pos ≤ l.input.length) :
    Adv l (acceptRun valid l) := by
  rw [acceptRun_eq valid l h]
  have := runLen_le valid l.input l.pos
  exact ⟨rfl, rfl, rfl, by dsimp only; omega, by dsimp only; omega⟩

theorem peek_adv {l : Lexer} (h : l.pos ≤ l.input.length) : Adv l (peek l).2 := by
  rw [peek_eq]
  exact ⟨rfl, rfl, rfl, Nat.le_refl _, h⟩

end GoDb

namespace GoDb

/-! ## `scanIdentifier` characterization -/

theorem takeWhile_eq_take_length {xs : List Char} {P : Char → Bool} :
    xs.take (xs.takeWhile P).length = xs.takeWhile P := by
  induction xs with
  | nil => simp
  | cons x xs ih =>
    by_cases hp : P x
    · rw [List.takeWhile_cons_of_pos hp]
      simpa using ih
    · rw [List.takeWhile_cons_of_neg hp]
      simp

theorem seg_runAt (valid input : List Char) (p : Nat) :
    seg input p (p + runLen valid input p) = runAt valid input p := by
  rw [seg, Nat.add_sub_cancel_left, runLen, runAt]
  exact takeWhile_eq_take_length

theorem scanIdentifier_eq_none {l : Lexer} (hr : l.input[l.pos]? = none) :
    scanIdentifier l = (false, { l with width := 0 }) := by
  simp only [scanIdentifier, accept_none hr]

theorem scanIdentifier_eq_not_mem {l : Lexer} {c : Char}
    (hr : l.input[l.pos]? = some c) (hm : c ∉ identChars) :
    scanIdentifier l = (false, { l with width := c.utf8Size }) := by
  simp only [scanIdentifier, accept_not_mem hr hm]

theorem runLen_succ_of_mem {valid input : List Char} {p : Nat} {c : Char}
    (hr : input[p]? = some c) (hm : c ∈ valid) :
    runLen valid input p = runLen valid input (p + 1) + 1 := by
  rw [runLen, runAt_cons_of_mem hr hm, List.length_cons, runLen]

theorem scanIdentifier_after_first {l : Lexer} {c : Char} (h : l.pos ≤ l.input.length)
    (hr : l.input[l.pos]? = some c) (hm : c ∈ identChars) :
    scanIdentifier l =
      (let K := runLen identCharsAndDigits l.input l.pos
       let l3 : Lexer := { l with pos := l.pos + K, width := widthAt l.input (l.pos + K) }
       if isAlphaNumericOpt (l.input[l.pos + K]?) then (false, (next l3).2)
       else (true, l3)) := by
  have hmd : c ∈ identCharsAndDigits := by
    unfold identCharsAndDigits
    exact List.mem_append_left _ hm
  have hKpos := runLen_succ_of_mem hr hmd
  have hcnl : c ≠ '\n' := fun he => by subst he; exact absurd hm (by decide)
  have hlt : l.pos < l.input.length := (List.getElem?_eq_some.mp hr).1
  have hcount : (runAt identCharsAndDigits l.input (l.pos + 1)).count '\n' = 0 :=
    runAt_count_nl_zero (by decide)
  simp only [scanIdentifier, accept_mem hr hm, if_neg hcnl]
  rw [acceptRun_eq _ _ (by dsimp only; omega), peek_eq]
  dsimp only
  have hidx : l.pos + 1 + runLen identCharsAndDigits l.input (l.pos + 1) =
      l.pos + runLen identCharsAndDigits l.input l.pos := by
    rw [hKpos]; omega
  rw [hcount, hidx, Nat.add_zero]

theorem scanIdentifier_eq_success {l : Lexer} {c : Char} (h : l.pos ≤ l.input.length)
    (hr : l.input[l.pos]? = some c) (hm : c ∈ identChars)
    (hb : isAlphaNumericOpt (l.input[l.pos + runLen identCharsAndDigits l.input l.pos]?)
      = false) :
    scanIdentifier l =
      (true, { l with pos := l.pos + runLen identCharsAndDigits l.input l.pos,
                      width := widthAt l.input
                        (l.pos + runLen identCharsAndDigits l.input l.pos) }) := by
  rw [scanIdentifier_after_first h hr hm]
  simp only [hb, if_false, Bool.false_eq_true]

theorem alnum_ne_newline {c : Char} (h : isAlphaNumeric c = true) : c ≠ '\n' := by
  intro he; subst he; revert h; decide

theorem scanIdentifier_eq_trailfail {l : Lexer} {c c' : Char} (h : l.pos ≤ l.input.length)
    (hr : l.input[l.pos]? = some c) (hm : c ∈ identChars)
    (hb : l.input[l.pos + runLen identCharsAndDigits l.input l.pos]? = some c')
    (hAl : isAlphaNumeric c' = true) :
    scanIdentifier l =
      (false, { l with pos := l.pos + runLen identCharsAndDigits l.input l.pos + 1,
                       width := c'.utf8Size }) := by
  rw [scanIdentifier_after_first h hr hm]
  simp only [hb, isAlphaNumericOpt, hAl, if_true]
  rw [next_some (by dsimp only; exact hb)]
  simp only [if_neg (alnum_ne_newline hAl)]

end GoDb

namespace GoDb

/-! ## Sub-scanner advancement and progress -/

theorem mem_iCD_of_identChars {c : Char} (hm : c ∈ identChars) :
    c ∈ identCharsAndDigits :=
  List.mem_append_left _ hm

theorem scanIdentifier_adv {l : Lexer} (h : l.pos ≤ l.input.length) :
    Adv l (scanIdentifier l).2 := by
  cases hr : l.input[l.pos]? with
  | none =>
    rw [scanIdentifier_eq_none hr]
    exact ⟨rfl, rfl, rfl, Nat.le_refl _, h⟩
  | some c =>
    have hlt : l.pos < l.input.length := (List.getElem?_eq_some.mp hr).1
    by_cases hm : c ∈ identChars
    · have hK1 : 1 ≤ runLen identCharsAndDigits l.input l.pos := by
        rw [runLen_succ_of_mem hr (mem_iCD_of_identChars hm)]
        omega
      have hKle := runLen_le identCharsAndDigits l.input l.pos
      rw [scanIdentifier_after_first h hr hm]
      dsimp only
      by_cases hb : isAlphaNumericOpt
          (l.input[l.pos + runLen identCharsAndDigits l.input l.pos]?) = true
      · obtain ⟨c', hc'⟩ : ∃ c',
            l.input[l.pos + runLen identCharsAndDigits l.input l.pos]? = some c' := by
          cases hg : l.input[l.pos + runLen identCharsAndDigits l.input l.pos]? with
          | none => rw [hg] at hb; simp [isAlphaNumericOpt] at hb
          | some c' => exact ⟨c', rfl⟩
        have hlt2 := (List.getElem?_eq_some.mp hc').1
        rw [if_pos hb, next_some (by dsimp only; exact hc')]
        exact ⟨rfl, rfl, rfl, by dsimp only; omega, by dsimp only; omega⟩
      · rw [if_neg hb]
        exact ⟨rfl, rfl, rfl, by dsimp only; omega, by dsimp only; omega⟩
    · rw [scanIdentifier_eq_not_mem hr hm]
      exact ⟨rfl, rfl, rfl, Nat.le_refl _, h⟩

theorem scanIdentifier_success_pos {l : Lexer} (h : l.pos ≤ l.input.length)
    (hs : (scanIdentifier l).1 = true) :
    l.pos + 1 ≤ (scanIdentifier l).2.pos := by
  cases hr : l.input[l.pos]? with
  | none => rw [scanIdentifier_eq_none hr] at hs; simp at hs
  | some c =>
    by_cases hm : c ∈ identChars
    · have hK1 : 1 ≤ runLen identCharsAndDigits l.input l.pos := by
        rw [runLen_succ_of_mem hr (mem_iCD_of_identChars hm)]
        omega
      rw [scanIdentifier_after_first h hr hm] at hs ⊢
      dsimp only at hs ⊢
      by_cases hb : isAlphaNumericOpt
          (l.input[l.pos + runLen identCharsAndDigits l.input l.pos]?) = true
      · rw [if_pos hb] at hs; simp at hs
      · rw [if_neg hb]
        dsimp only
        omega
    · rw [scanIdentifier_eq_not_mem hr hm] at hs; simp at hs

end GoDb

namespace GoDb

end GoDb

namespace GoDb

/-! ## `scanNumber` advancement -/

theorem Adv.bound {a b : Lexer} (h : Adv a b) : b.pos ≤ b.input.length := by
  rw [h.1]
  exact h.2.2.2.2

theorem if_adv (c : Prop) [Decidable c] {lx a b : Lexer}
    (ha : Adv lx a) (hb : Adv lx b) : Adv lx (if c then a else b) := by
  by_cases hc : c
  · rw [if_pos hc]; exact ha
  · rw [if_neg hc]; exact hb

theorem scanNumberFrac_adv (digits : List Char) {l6 : Lexer}
    (h : l6.pos ≤ l6.input.length) : Adv l6 (scanNumberFrac digits l6) := by
  unfold scanNumberFrac
  rcases ha : accept ['.'] l6 with ⟨b, la⟩
  have h1 : Adv l6 la := by have := accept_adv ['.'] h; rwa [ha] at this
  cases b with
  | false => exact h1
  | true =>
    dsimp only
    exact h1.trans (acceptRun_adv _ h1.bound)

theorem scanNumberExp_adv (marker : List Char) {l7 : Lexer}
    (h : l7.pos ≤ l7.input.length) : Adv l7 (scanNumberExp marker l7) := by
  unfold scanNumberExp
  rcases ha : accept marker l7 with ⟨b, la⟩
  have h1 : Adv l7 la := by have := accept_adv marker h; rwa [ha] at this
  cases b with
  | false => exact h1
  | true =>
    dsimp only
    have h2 := h1.trans (accept_adv ['+', '-'] h1.bound)
    exact h2.trans (acceptRun_adv _ h2.bound)

theorem scanNumberFinal_adv {l9 : Lexer} (h : l9.pos ≤ l9.input.length) :
    Adv l9 (scanNumberFinal l9).2 := by
  unfold scanNumberFinal
  have h1 : Adv l9 (accept ['i'] l9).2 := accept_adv _ h
  have h2 : Adv l9 (peek (accept ['i'] l9).2).2 := h1.trans (peek_adv h1.bound)
  dsimp only
  by_cases hb : isAlphaNumericOpt (peek (accept ['i'] l9).2).1 = true
  · rw [if_pos hb]
    exact h2.trans (next_adv h2.bound)
  · rw [if_neg hb]
    exact h2

theorem scanNumberTail_adv (digits : List Char) {l5 : Lexer}
    (h : l5.pos ≤ l5.input.length) : Adv l5 (scanNumberTail digits l5).2 := by
  unfold scanNumberTail
  have c6 := acceptRun_adv digits h
  have c7 := c6.trans (scanNumberFrac_adv digits c6.bound)
  have c8 := c7.trans (if_adv (digits.length = 10 + 1)
    (scanNumberExp_adv ['e', 'E'] c7.bound) (Adv.refl_of_le c7.bound))
  have c9 := c8.trans (if_adv (digits.length = 16 + 6 + 1)
    (scanNumberExp_adv ['p', 'P'] c8.bound) (Adv.refl_of_le c8.bound))
  exact c9.trans (scanNumberFinal_adv c9.bound)

theorem scanNumberBase_adv {l2 : Lexer} (h : l2.pos ≤ l2.input.length) :
    Adv l2 (scanNumberBase l2).2 := by
  unfold scanNumberBase
  rcases hx : accept ['x', 'X'] l2 with ⟨bx, l3⟩
  have ax : Adv l2 l3 := by have := accept_adv ['x', 'X'] h; rwa [hx] at this
  cases bx with
  | true =>
    dsimp only
    exact ax.trans (scanNumberTail_adv hexDigits ax.bound)
  | false =>
    dsimp only
    rcases ho : accept ['o', 'O'] l3 with ⟨bo, l4⟩
    have ao : Adv l2 l4 := ax.trans
      (by have := accept_adv ['o', 'O'] ax.bound; rwa [ho] at this)
    cases bo with
    | true =>
      dsimp only
      exact ao.trans (scanNumberTail_adv octDigits ao.bound)
    | false =>
      dsimp only
      rcases hbb : accept ['b', 'B'] l4 with ⟨bb, l5⟩
      have ab : Adv l2 l5 := ao.trans
        (by have := accept_adv ['b', 'B'] ao.bound; rwa [hbb] at this)
      cases bb with
      | true =>
        dsimp only
        exact ab.trans (scanNumberTail_adv binDigits ab.bound)
      | false =>
        dsimp only
        exact ab.trans (scanNumberTail_adv decDigits ab.bound)

theorem scanNumberBody_adv {l1 : Lexer} (h : l1.pos ≤ l1.input.length) :
    Adv l1 (scanNumberBody l1).2 := by
  unfold scanNumberBody
  rcases h0 : accept ['0'] l1 with ⟨b0, l2⟩
  have a0 : Adv l1 l2 := by have := accept_adv ['0'] h; rwa [h0] at this
  cases b0 with
  | true =>
    dsimp only
    exact a0.trans (scanNumberBase_adv a0.bound)
  | false =>
    dsimp only
    exact a0.trans (scanNumberTail_adv decDigits a0.bound)

theorem scanNumber_adv {l : Lexer} (h : l.pos ≤ l.input.length) :
    Adv l (scanNumber l).2 := by
  unfold scanNumber
  have a1 : Adv l (accept ['+', '-'] l).2 := accept_adv _ h
  exact a1.trans (scanNumberBody_adv a1.bound)

end GoDb

namespace GoDb

/-! ## `scanNumber` progress -/

theorem accept_pos_of_mem {valid : List Char} {l : Lexer} {c : Char}
    (hr : l.input[l.pos]? = some c) (hm : c ∈ valid) :
    (accept valid l).2.pos = l.pos + 1 := by
  rw [accept_mem hr hm]

theorem accept_pos_of_not_mem {valid : List Char} {l : Lexer} {c : Char}
    (hr : l.input[l.pos]? = some c) (hm : c ∉ valid) :
    (accept valid l).2.pos = l.pos := by
  rw [accept_not_mem hr hm]

theorem scanNumberBody_pos {l1 : Lexer} (h : l1.pos ≤ l1.input.length) :
    l1.pos ≤ (scanNumberBody l1).2.pos :=
  (scanNumberBody_adv h).2.2.2.1

theorem scanNumberBase_pos (l2 : Lexer) (h : l2.pos ≤ l2.input.length) :
    l2.pos ≤ (scanNumberBase l2).2.pos :=
  (scanNumberBase_adv h).2.2.2.1

theorem scanNumberTail_pos_of_mem (digits : List Char) {l5 : Lexer} {c : Char}
    (h : l5.pos ≤ l5.input.length) (hr : l5.input[l5.pos]? = some c) (hm : c ∈ digits) :
    l5.pos + 1 ≤ (scanNumberTail digits l5).2.pos := by
  unfold scanNumberTail
  have hK : 1 ≤ runLen digits l5.input l5.pos := by
    rw [runLen_succ_of_mem hr hm]
    omega
  have c6 : Adv l5 (acceptRun digits l5) := acceptRun_adv _ h
  have d7 := scanNumberFrac_adv digits c6.bound
  have d8 := if_adv (digits.length = 10 + 1)
    (d7.trans (scanNumberExp_adv ['e', 'E'] d7.bound)) d7
  have d9 := if_adv (digits.length = 16 + 6 + 1)
    (d8.trans (scanNumberExp_adv ['p', 'P'] d8.bound)) d8
  have dA := d9.trans (scanNumberFinal_adv d9.bound)
  have h1 := dA.2.2.2.1
  have h2 : (acceptRun digits l5).pos = l5.pos + runLen digits l5.input l5.pos := by
    rw [acceptRun_eq digits l5 h]
  dsimp only
  omega

theorem scanNumber_progress {l : Lexer} {c : Char} (h : l.pos ≤ l.input.length)
    (hr : l.input[l.pos]? = some c)
    (hc : c = '+' ∨ c = '-' ∨ ('0' ≤ c ∧ c ≤ '9')) :
    l.pos + 1 ≤ (scanNumber l).2.pos := by
  unfold scanNumber
  have hlt : l.pos < l.input.length := (List.getElem?_eq_some.mp hr).1
  have ha1 : Adv l (accept ['+', '-'] l).2 := accept_adv _ h
  by_cases hpm : c ∈ (['+', '-'] : List Char)
  · have hp1 := accept_pos_of_mem hr hpm
    have hbody := scanNumberBody_pos ha1.bound
    omega
  · have hd : '0' ≤ c ∧ c ≤ '9' := by
      rcases hc with hc | hc | hc
      · subst hc; exact absurd (by decide) hpm
      · subst hc; exact absurd (by decide) hpm
      · exact hc
    have hnm := accept_pos_of_not_mem hr hpm
    have hr1 : (accept ['+', '-'] l).2.input[(accept ['+', '-'] l).2.pos]? = some c := by
      rw [ha1.1, hnm]
      exact hr
    have hlt1 : (accept ['+', '-'] l).2.pos < (accept ['+', '-'] l).2.input.length :=
      (List.getElem?_eq_some.mp hr1).1
    unfold scanNumberBody
    rcases ha0 : accept ['0'] (accept ['+', '-'] l).2 with ⟨b0, l2⟩
    by_cases h0 : c = '0'
    · subst h0
      rw [accept_mem hr1 (by decide)] at ha0
      injection ha0 with hb hl
      subst hb
      dsimp only
      have hp2 := congrArg Lexer.pos hl
      dsimp only at hp2
      have hi2 := congrArg Lexer.input hl
      dsimp only at hi2
      have hbase := scanNumberBase_pos l2 (by rw [← hi2, ← hp2]; omega)
      omega
    · have hn0 : c ∉ (['0'] : List Char) := by simp [h0]
      rw [accept_not_mem hr1 hn0] at ha0
      injection ha0 with hb hl
      subst hb
      dsimp only
      have hp2 := congrArg Lexer.pos hl
      dsimp only at hp2
      have hi2 := congrArg Lexer.input hl
      dsimp only at hi2
      have hr2 : l2.input[l2.pos]? = some c := by
        rw [← hi2, ← hp2]
        exact hr1
      have htail := scanNumberTail_pos_of_mem decDigits
        (by rw [← hi2, ← hp2]; exact ha1.bound) hr2
        (mem_decDigits_of_digit hd.1 hd.2)
      omega

end GoDb

namespace GoDb

/-! ## `scanString` and keyword-loop advancement -/

theorem next_fst (l : Lexer) : (next l).1 = l.input[l.pos]? := by
  cases h : l.input[l.pos]? with
  | none => rw [next_none h]
  | some r => rw [next_some h]

theorem next_eq_some_parts {l l1 : Lexer} {r : Char} (hn : next l = (some r, l1)) :
    l.input[l.pos]? = some r ∧ l1.input = l.input ∧ l1.pos = l.pos + 1 ∧
    l1.start = l.start ∧ l1.startLine = l.startLine ∧ l1.width = r.utf8Size := by
  have hr : l.input[l.pos]? = some r := by
    rw [← next_fst, hn]
  rw [next_some hr] at hn
  have h2 := congrArg Prod.snd hn
  dsimp only at h2
  refine ⟨hr, ?_, ?_, ?_, ?_, ?_⟩ <;> rw [← h2]

theorem next_eq_none_parts {l l1 : Lexer} (hn : next l = (none, l1)) :
    l.input[l.pos]? = none ∧ l1.input = l.input ∧ l1.pos = l.pos ∧
    l1.start = l.start ∧ l1.startLine = l.startLine ∧ l1.width = 0 := by
  have hr : l.input[l.pos]? = none := by
    rw [← next_fst, hn]
  rw [next_none hr] at hn
  have h2 := congrArg Prod.snd hn
  dsimp only at h2
  refine ⟨hr, ?_, ?_, ?_, ?_, ?_⟩ <;> rw [← h2]

theorem backup_parts (l : Lexer) :
    (backup l).input = l.input ∧ (backup l).start = l.start ∧
    (backup l).startLine = l.startLine ∧ l.pos - 1 ≤ (backup l).pos ∧
    (backup l).pos ≤ l.pos := by
  by_cases hw : l.width = 0
  · rw [backup_of_width_zero hw]
    exact ⟨rfl, rfl, rfl, by omega, by omega⟩
  · unfold backup
    rw [if_neg hw]
    exact ⟨rfl, rfl, rfl, by dsimp only; omega, by dsimp only; omega⟩

theorem scanStringGo_adv : ∀ (fuel : Nat) {l : Lexer}, l.pos ≤ l.input.length →
    Adv l (scanStringGo fuel l).2 := by
  intro fuel
  induction fuel with
  | zero => intro l h; exact Adv.refl_of_le h
  | succ fuel ih =>
    intro l h
    rcases hn : next l with ⟨ro, l1⟩
    cases ro with
    | none =>
      obtain ⟨hr, hi, hp, hs, hsl, -⟩ := next_eq_none_parts hn
      simp only [scanStringGo, hn]
      exact ⟨hi, hs, hsl, by omega, by omega⟩
    | some r =>
      obtain ⟨hr, hi, hp, hs, hsl, -⟩ := next_eq_some_parts hn
      have hlt : l.pos < l.input.length := (List.getElem?_eq_some.mp hr).1
      have hA1 : Adv l l1 := ⟨hi, hs, hsl, by omega, by omega⟩
      simp only [scanStringGo, hn]
      by_cases hbs : r = '\\'
      · rw [if_pos hbs]
        rcases hn2 : next l1 with ⟨ro2, l2⟩
        cases ro2 with
        | none =>
          obtain ⟨-, hi2, hp2, hs2, hsl2, -⟩ := next_eq_none_parts hn2
          dsimp only
          exact ⟨by rw [hi2, hi], by rw [hs2, hs], by rw [hsl2, hsl], by omega,
            by omega⟩
        | some r2 =>
          obtain ⟨hr2, hi2, hp2, hs2, hsl2, -⟩ := next_eq_some_parts hn2
          have hlt2 : l1.pos < l.input.length := by
            have := (List.getElem?_eq_some.mp hr2).1
            rwa [hi] at this
          have hA2 : Adv l l2 :=
            ⟨by rw [hi2, hi], by rw [hs2, hs], by rw [hsl2, hsl], by omega, by omega⟩
          dsimp only
          by_cases hnl2 : r2 = '\n'
          · rw [if_pos hnl2]
            exact hA2
          · rw [if_neg hnl2]
            exact hA2.trans (ih hA2.bound)
      · by_cases hnl : r = '\n'
        · rw [if_neg hbs, if_pos hnl]
          exact hA1
        · by_cases hq : r = '\''
          · rw [if_neg hbs, if_neg hnl, if_pos hq]
            by_cases hq2 : (next l1).1 = some '\''
            · rw [if_pos hq2]
              have hA2 := hA1.trans (next_adv hA1.bound)
              exact hA2.trans (ih hA2.bound)
            · rw [if_neg hq2]
              have hA15 := next_adv hA1.bound
              have hA2 := hA1.trans hA15
              obtain ⟨hbi, hbst, hbsl, hb1, hb2⟩ := backup_parts (next l1).2
              have e0 := hA15.2.2.2.1
              have e2 := hA2.2.2.2.2
              dsimp only
              exact ⟨by rw [hbi, hA2.1], by rw [hbst, hA2.2.1],
                by rw [hbsl, hA2.2.2.1], by omega, by omega⟩
          · rw [if_neg hbs, if_neg hnl, if_neg hq]
            exact hA1.trans (ih hA1.bound)

theorem scanString_adv {l : Lexer} (h : l.pos ≤ l.input.length) :
    Adv l (scanString l).2 := by
  unfold scanString
  rcases hn : next l with ⟨ro, l1⟩
  cases ro with
  | none =>
    obtain ⟨hr, hi, hp, hs, hsl, hw⟩ := next_eq_none_parts hn
    dsimp only
    rw [backup_of_width_zero hw]
    exact ⟨hi, hs, hsl, by omega, by omega⟩
  | some r =>
    obtain ⟨hr, hi, hp, hs, hsl, hw⟩ := next_eq_some_parts hn
    have hlt : l.pos < l.input.length := (List.getElem?_eq_some.mp hr).1
    have hA1 : Adv l l1 := ⟨hi, hs, hsl, by omega, by omega⟩
    dsimp only
    by_cases hq : r = '\''
    · rw [if_pos hq]
      exact hA1.trans (scanStringGo_adv _ hA1.bound)
    · rw [if_neg hq]
      obtain ⟨hbi, hbst, hbsl, hb1, hb2⟩ := backup_parts l1
      dsimp only
      exact ⟨by rw [hbi, hi], by rw [hbst, hs], by rw [hbsl, hsl], by omega,
        by omega⟩

theorem scanString_progress {l : Lexer} (h : l.pos ≤ l.input.length)
    (hs : (scanString l).1 = true) : l.pos + 1 ≤ (scanString l).2.pos := by
  unfold scanString at hs ⊢
  rcases hn : next l with ⟨ro, l1⟩
  rw [hn] at hs
  cases ro with
  | none => simp at hs
  | some r =>
    obtain ⟨hr, hi, hp, hst, hsl, hw⟩ := next_eq_some_parts hn
    have hlt : l.pos < l.input.length := (List.getElem?_eq_some.mp hr).1
    have hA1 : Adv l l1 := ⟨hi, hst, hsl, by omega, by omega⟩
    dsimp only at hs ⊢
    by_cases hq : r = '\''
    · rw [if_pos hq]
      have := (scanStringGo_adv (l.input.length + 1 - l1.pos) hA1.bound).2.2.2.1
      omega
    · rw [if_neg hq] at hs
      simp at hs

theorem lexKeywordLoop_parts (keyword : List Char) :
    ∀ (pairs : List (Char × Char)) (index : Nat) {l : Lexer},
      l.pos ≤ l.input.length →
      (∀ {m : ErrMsg} {l1 : Lexer},
        lexKeywordLoop keyword pairs index l = (some m, l1) →
        l1.input = l.input ∧ l1.start = l.start ∧ l1.startLine = l.startLine ∧
        l.pos ≤ l1.pos ∧ l1.pos ≤ l.input.length) ∧
      (∀ {l1 : Lexer}, lexKeywordLoop keyword pairs index l = (none, l1) →
        l1.input = l.input ∧ l1.start = l.start ∧ l1.startLine = l.startLine ∧
        l1.pos = l.pos + pairs.length ∧ l1.pos ≤ l.input.length) := by
  intro pairs
  induction pairs with
  | nil =>
    intro index l h
    constructor
    · intro m l1 he
      simp only [lexKeywordLoop] at he
      injection he with h1 h2
      exact Option.noConfusion h1
    · intro l1 he
      simp only [lexKeywordLoop] at he
      injection he with h1 h2
      rw [← h2]
      exact ⟨rfl, rfl, rfl, by simp, h⟩
  | cons pr rest ih =>
    intro index l h
    obtain ⟨lo, up⟩ := pr
    have hnext := next_adv (l := l) h
    constructor
    · intro m l1 he
      simp only [lexKeywordLoop] at he
      by_cases hm : (next l).1 = some lo ∨ (next l).1 = some up
      · rw [if_pos hm] at he
        obtain ⟨r, hfst⟩ : ∃ r, (next l).1 = some r := by
          rcases hm with hm | hm
          · exact ⟨lo, hm⟩
          · exact ⟨up, hm⟩
        have hn : next l = (some r, (next l).2) := by
          rw [← hfst]
        obtain ⟨hr, hi2, hp2, hs2, hsl2, -⟩ := next_eq_some_parts hn
        have hlt : l.pos < l.input.length := (List.getElem?_eq_some.mp hr).1
        have hb2 : (next l).2.pos ≤ (next l).2.input.length := by
          rw [hi2]
          omega
        obtain ⟨g1, g2, g3, g4, g5⟩ := ((ih (index + 1) hb2).1 he)
        rw [hi2] at g1 g5
        rw [hs2] at g2
        rw [hsl2] at g3
        exact ⟨g1, g2, g3, by omega, g5⟩
      · rw [if_neg hm] at he
        injection he with h1 h2
        rw [← h2]
        exact ⟨hnext.1, hnext.2.1, hnext.2.2.1, hnext.2.2.2.1, hnext.2.2.2.2⟩
    · intro l1 he
      simp only [lexKeywordLoop] at he
      by_cases hm : (next l).1 = some lo ∨ (next l).1 = some up
      · rw [if_pos hm] at he
        obtain ⟨r, hfst⟩ : ∃ r, (next l).1 = some r := by
          rcases hm with hm | hm
          · exact ⟨lo, hm⟩
          · exact ⟨up, hm⟩
        have hn : next l = (some r, (next l).2) := by
          rw [← hfst]
        obtain ⟨hr, hi2, hp2, hs2, hsl2, -⟩ := next_eq_some_parts hn
        have hlt : l.pos < l.input.length := (List.getElem?_eq_some.mp hr).1
        have hb2 : (next l).2.pos ≤ (next l).2.input.length := by
          rw [hi2]
          omega
        obtain ⟨g1, g2, g3, g4, g5⟩ := ((ih (index + 1) hb2).2 he)
        rw [hi2] at g1 g5
        rw [hs2] at g2
        rw [hsl2] at g3
        refine ⟨g1, g2, g3, ?_, g5⟩
        rw [g4, hp2]
        simp only [List.length_cons]
        omega
      · rw [if_neg hm] at he
        injection he with h1 h2
        exact Option.noConfusion h1

end GoDb

namespace GoDb

/-! ## Token-span chains: the shape of each state step's output -/

/-- Ranks ordering the states along the automaton's chain; only
`ValueExprList` can revisit itself, and then only after consuming
input. -/
def rank : StateTag → Nat
  | .startStatement => 5
  | .selectKeyword => 4
  | .valueExprList => 3
  | .fromKeyword => 2
  | .fromTableName => 1
  | .endOfStatement => 0

/-- A token that is neither terminal kind. -/
def goodItem (it : item) : Prop := it.typ ≠ .itemError ∧ it.typ ≠ .itemEOF

/-- `Chain input a items b`: the items cover `[a, b)` in order with
non-overlapping, non-empty, strictly increasing spans whose text is the
input slice at the recorded byte offset, separated (and preceded /
followed) only by whitespace. -/
inductive Chain (input : List Char) : Nat → List item → Nat → Prop where
  | nil {a b : Nat} (hle : a ≤ b) (hws : wsBetween input a b) : Chain input a [] b
  | cons {a s e b : Nat} {it : item} {rest : List item}
      (has : a ≤ s) (hse : s < e) (heL : e ≤ input.length)
      (hws : wsBetween input a s)
      (hpos : it.pos = byteOff input s)
      (hval : it.val = .text (seg input s e))
      (htyp : it.typ ≠ .itemError)
      (hrest : Chain input e rest b) : Chain input a (it :: rest) b

theorem Chain.le {input : List Char} {a b : Nat} {xs : List item}
    (h : Chain input a xs b) : a ≤ b := by
  induction h with
  | nil hle _ => exact hle
  | cons has hse heL _ _ _ _ _ ih => omega

theorem Chain.extend_left {input : List Char} {a b c : Nat} {ys : List item}
    (hab : a ≤ b) (hws : wsBetween input a b) (h : Chain input b ys c) :
    Chain input a ys c := by
  cases h with
  | nil hle hws2 => exact .nil (by omega) (wsBetween_trans hws hws2)
  | cons has hse heL hws2 hpos hval htyp hrest =>
    exact .cons (by omega) hse heL (wsBetween_trans hws hws2) hpos hval htyp hrest

theorem Chain.append {input : List Char} {a b c : Nat} {xs ys : List item}
    (h1 : Chain input a xs b) (h2 : Chain input b ys c) :
    Chain input a (xs ++ ys) c := by
  induction h1 with
  | nil hle hws => exact Chain.extend_left hle hws h2
  | cons has hse heL hws hpos hval htyp hrest ih =>
    exact .cons has hse heL hws hpos hval htyp (ih h2)

theorem Chain.extend_right {input : List Char} {a b c : Nat} {xs : List item}
    (h : Chain input a xs b) (hbc : b ≤ c) (hws : wsBetween input b c) :
    Chain input a xs c := by
  induction h with
  | nil hle hws2 => exact .nil (by omega) (wsBetween_trans hws2 hws)
  | cons has hse heL hws2 hpos hval htyp hrest ih =>
    exact .cons has hse heL hws2 hpos hval htyp (ih hbc hws)

/-- What one state-function call guarantees, relative to the input and
the position `a` at which its pending window started: position advances
within bounds; on a transition the emitted items chain from `a` to the
new position and the measure drops; on a halt the items are a chain plus
one terminal item — an Error carrying the pending window's offset and
start line, or the EndOfInput token. -/
def stepOK (tag : StateTag) (input : List Char) (a : Nat)
    (res : List item × Option StateTag × Lexer) : Prop :=
  res.2.2.input = input ∧ a ≤ res.2.2.pos ∧ res.2.2.pos ≤ input.length ∧
  (∀ tag', res.2.1 = some tag' →
    Chain input a res.1 res.2.2.pos ∧ (∀ it ∈ res.1, goodItem it) ∧
    input.length - res.2.2.pos + rank tag' < input.length - a + rank tag) ∧
  (res.2.1 = none →
    ∃ good e, res.1 = good ++ [e] ∧ (∀ it ∈ good, goodItem it) ∧
      ((e.typ = .itemError ∧ e.pos = byteOff res.2.2.input res.2.2.start ∧
        e.line = res.2.2.startLine ∧ (∃ m, e.val = .err m) ∧
        (∃ b, Chain input a good b))
       ∨ (e.typ = .itemEOF ∧ Chain input a res.1 res.2.2.pos)))

/-! ### Helpers for the per-state proofs -/

theorem backup_pos_of_width_ne {l : Lexer} (hw : l.width ≠ 0) :
    (backup l).pos = l.pos - 1 := by
  unfold backup
  rw [if_neg hw]

theorem skipWhitespace_parts (l : Lexer) (h : l.pos ≤ l.input.length) :
    (skipWhitespace l).input = l.input ∧
    (skipWhitespace l).start = (skipWhitespace l).pos ∧
    (skipWhitespace l).startLine = l.startLine ∧
    l.pos ≤ (skipWhitespace l).pos ∧ (skipWhitespace l).pos ≤ l.input.length := by
  rw [skipWhitespace_eq l h]
  have := runLen_le spaceChars l.input l.pos
  exact ⟨rfl, rfl, rfl, by dsimp only; omega, by dsimp only; omega⟩

theorem accept_eq_true_parts {valid : List Char} {l l1 : Lexer}
    (ha : accept valid l = (true, l1)) :
    ∃ c, l.input[l.pos]? = some c ∧ c ∈ valid ∧ l1.input = l.input ∧
      l1.pos = l.pos + 1 ∧ l1.start = l.start ∧ l1.startLine = l.startLine := by
  cases hr : l.input[l.pos]? with
  | none =>
    rw [accept_none hr] at ha
    exact absurd (congrArg Prod.fst ha) (by simp)
  | some c =>
    by_cases hm : c ∈ valid
    · rw [accept_mem hr hm] at ha
      have h2 := congrArg Prod.snd ha
      dsimp only at h2
      exact ⟨c, rfl, hm, by rw [← h2], by rw [← h2], by rw [← h2], by rw [← h2]⟩
    · rw [accept_not_mem hr hm] at ha
      exact absurd (congrArg Prod.fst ha) (by simp)

theorem accept_eq_false_parts {valid : List Char} {l l1 : Lexer}
    (ha : accept valid l = (false, l1)) :
    l1.input = l.input ∧ l1.pos = l.pos ∧ l1.start = l.start ∧
    l1.startLine = l.startLine := by
  cases hr : l.input[l.pos]? with
  | none =>
    rw [accept_none hr] at ha
    have h2 := congrArg Prod.snd ha
    dsimp only at h2
    exact ⟨by rw [← h2], by rw [← h2], by rw [← h2], by rw [← h2]⟩
  | some c =>
    by_cases hm : c ∈ valid
    · rw [accept_mem hr hm] at ha
      exact absurd (congrArg Prod.fst ha) (by simp)
    · rw [accept_not_mem hr hm] at ha
      have h2 := congrArg Prod.snd ha
      dsimp only at h2
      exact ⟨by rw [← h2], by rw [← h2], by rw [← h2], by rw [← h2]⟩

theorem emit_parts (t : itemType) (l : Lexer) :
    (emit t l).1 = ⟨t, byteOff l.input l.start, .text (seg l.input l.start l.pos),
      l.startLine⟩ ∧
    (emit t l).2.input = l.input ∧ (emit t l).2.pos = l.pos ∧
    (emit t l).2.start = l.pos ∧ (emit t l).2.startLine = l.line := by
  exact ⟨rfl, rfl, rfl, rfl, rfl⟩

end GoDb

namespace GoDb

/-! ## Per-state step lemmas -/

theorem goodItem_mk {t : itemType} {p : Nat} {v : ItemVal} {ln : Nat}
    (h1 : t ≠ .itemError) (h2 : t ≠ .itemEOF) : goodItem ⟨t, p, v, ln⟩ := ⟨h1, h2⟩

theorem step_startStatement {l : Lexer} (h : l.pos ≤ l.input.length) :
    stepOK .startStatement l.input l.pos (lexStartStatement l) := by
  obtain ⟨hwi, hwsp, hwsl, hwp1, hwp2⟩ := skipWhitespace_parts l h
  have hws := skipWhitespace_ws l h
  unfold stepOK lexStartStatement
  dsimp only
  rcases hn : next (skipWhitespace l) with ⟨ro, l1⟩
  cases ro with
  | none =>
    obtain ⟨hr, hi, hp, hs, hsl, hw⟩ := next_eq_none_parts hn
    dsimp only
    refine ⟨by rw [hi, hwi], by rw [hp]; exact hwp1, by rw [hp]; exact hwp2, ?_, ?_⟩
    · intro tag' habs
      exact Option.noConfusion habs
    · intro _
      refine ⟨[], errItem .notFinishedStatement l1, rfl, ?_,
        Or.inl ⟨rfl, rfl, rfl, ⟨_, rfl⟩,
          ⟨l.pos, Chain.nil (Nat.le_refl _) (wsBetween_of_le (Nat.le_refl _))⟩⟩⟩
      intro it hit
      exact absurd hit (List.not_mem_nil it)
  | some r =>
    obtain ⟨hr, hi, hp, hs, hsl, hw⟩ := next_eq_some_parts hn
    have hlt : (skipWhitespace l).pos < l.input.length := by
      have := (List.getElem?_eq_some.mp hr).1
      rw [hwi] at this
      exact this
    dsimp only
    by_cases hcase : r = 's' ∨ r = 'S'
    · rw [if_pos hcase]
      have hwne : l1.width ≠ 0 := by
        rw [hw]
        have := Char.utf8Size_pos r
        omega
      have hbp : (backup l1).pos = l1.pos - 1 := backup_pos_of_width_ne hwne
      obtain ⟨hbi, hbs, hbsl, _, _⟩ := backup_parts l1
      refine ⟨by rw [hbi, hi, hwi], by rw [hbp, hp]; omega, by rw [hbp, hp]; omega,
        ?_, ?_⟩
      · intro tag' htag
        injection htag with he
        subst he
        refine ⟨?_, ?_, ?_⟩
        · rw [hbp, hp]
          simp only [Nat.add_sub_cancel]
          exact Chain.nil hwp1 hws
        · intro it hit
          exact absurd hit (List.not_mem_nil it)
        · simp only [rank]
          rw [hbp, hp]
          omega
      · intro habs
        exact Option.noConfusion habs
    · rw [if_neg hcase]
      refine ⟨by rw [hi, hwi], by rw [hp]; omega, by rw [hp]; omega, ?_, ?_⟩
      · intro tag' habs
        exact Option.noConfusion habs
      · intro _
        refine ⟨[], errItem (.unrecognizedStartOfStatement (some r)) l1, rfl, ?_,
          Or.inl ⟨rfl, rfl, rfl, ⟨_, rfl⟩,
            ⟨l.pos, Chain.nil (Nat.le_refl _) (wsBetween_of_le (Nat.le_refl _))⟩⟩⟩
        intro it hit
        exact absurd hit (List.not_mem_nil it)

theorem step_endOfStatement {l : Lexer} (h : l.pos ≤ l.input.length) :
    stepOK .endOfStatement l.input l.pos (lexEndOfStatement l) := by
  obtain ⟨hwi, hwsp, hwsl, hwp1, hwp2⟩ := skipWhitespace_parts l h
  have hws := skipWhitespace_ws l h
  unfold stepOK lexEndOfStatement
  dsimp only
  rcases ha : accept [';'] (skipWhitespace l) with ⟨b, l1⟩
  cases b with
  | false =>
    obtain ⟨hi, hp, hs, hsl⟩ := accept_eq_false_parts ha
    dsimp only
    refine ⟨by rw [hi, hwi], by rw [hp]; exact hwp1, by rw [hp]; exact hwp2, ?_, ?_⟩
    · intro tag' habs
      exact Option.noConfusion habs
    · intro _
      refine ⟨[], errItem .unterminatedStatement l1, rfl, ?_,
        Or.inl ⟨rfl, rfl, rfl, ⟨_, rfl⟩,
          ⟨l.pos, Chain.nil (Nat.le_refl _) (wsBetween_of_le (Nat.le_refl _))⟩⟩⟩
      intro it hit
      exact absurd hit (List.not_mem_nil it)
  | true =>
    obtain ⟨c, hc, hcm, hi, hp, hs, hsl⟩ := accept_eq_true_parts ha
    have hlt : (skipWhitespace l).pos < l.input.length := by
      have := (List.getElem?_eq_some.mp hc).1
      rw [hwi] at this
      exact this
    obtain ⟨htok, hei, hep, hes, hesl⟩ := emit_parts .itemEOF l1
    dsimp only
    refine ⟨by rw [hei, hi, hwi], by rw [hep, hp]; omega, by rw [hep, hp]; omega,
      ?_, ?_⟩
    · intro tag' habs
      exact Option.noConfusion habs
    · intro _
      refine ⟨[], (emit .itemEOF l1).1, rfl, ?_, Or.inr ⟨by rw [htok], ?_⟩⟩
      · intro it hit
        exact absurd hit (List.not_mem_nil it)
      · rw [htok, hep]
        refine Chain.cons (e := l1.pos) hwp1 (by omega) (by omega)
          hws ?_ ?_ (fun hx => by simp at hx)
          (Chain.nil (Nat.le_refl _) (wsBetween_of_le (Nat.le_refl _)))
        · show byteOff l1.input l1.start = byteOff l.input (skipWhitespace l).pos
          rw [hi, hwi, hs, hwsp]
        · show ItemVal.text (seg l1.input l1.start l1.pos) =
            .text (seg l.input (skipWhitespace l).pos l1.pos)
          rw [hi, hwi, hs, hwsp]

theorem step_fromTableName {l : Lexer} (h : l.pos ≤ l.input.length) :
    stepOK .fromTableName l.input l.pos (lexFromTableName l) := by
  obtain ⟨hwi, hwsp, hwsl, hwp1, hwp2⟩ := skipWhitespace_parts l h
  have hws := skipWhitespace_ws l h
  have hwb : (skipWhitespace l).pos ≤ (skipWhitespace l).input.length := by
    rw [hwi]
    exact hwp2
  unfold stepOK lexFromTableName
  dsimp only
  rcases hsi : scanIdentifier (skipWhitespace l) with ⟨b, l1⟩
  cases b with
  | false =>
    have hadv : Adv (skipWhitespace l) l1 := by
      have := scanIdentifier_adv hwb
      rw [hsi] at this
      exact this
    obtain ⟨hi, hs, hsl, hp1, hp2⟩ := hadv
    rw [hwi] at hp2
    dsimp only
    refine ⟨by rw [hi, hwi], by omega, hp2, ?_, ?_⟩
    · intro tag' habs
      exact Option.noConfusion habs
    · intro _
      refine ⟨[], errItem (.badIdentifier (seg l1.input l1.start l1.pos)) l1, rfl, ?_,
        Or.inl ⟨rfl, rfl, rfl, ⟨_, rfl⟩,
          ⟨l.pos, Chain.nil (Nat.le_refl _) (wsBetween_of_le (Nat.le_refl _))⟩⟩⟩
      intro it hit
      exact absurd hit (List.not_mem_nil it)
  | true =>
    have hadv : Adv (skipWhitespace l) l1 := by
      have := scanIdentifier_adv hwb
      rw [hsi] at this
      exact this
    have hprog : (skipWhitespace l).pos + 1 ≤ l1.pos := by
      have h1 := scanIdentifier_success_pos hwb (by rw [hsi])
      rw [hsi] at h1
      exact h1
    obtain ⟨hi, hs, hsl, hp1, hp2⟩ := hadv
    rw [hwi] at hp2
    obtain ⟨htok, hei, hep, hes, hesl⟩ := emit_parts .itemIdentifier l1
    dsimp only
    refine ⟨by rw [hei, hi, hwi], by rw [hep]; omega, by rw [hep]; exact hp2, ?_, ?_⟩
    · intro tag' htag
      injection htag with he
      subst he
      refine ⟨?_, ?_, ?_⟩
      · rw [htok, hep]
        refine Chain.cons (s := (skipWhitespace l).pos) hwp1 (by omega) hp2 hws
          ?_ ?_ (fun hx => by simp at hx)
          (Chain.nil (Nat.le_refl _) (wsBetween_of_le (Nat.le_refl _)))
        · show byteOff l1.input l1.start = byteOff l.input (skipWhitespace l).pos
          rw [hi, hwi, hs, hwsp]
        · show ItemVal.text (seg l1.input l1.start l1.pos) =
            .text (seg l.input (skipWhitespace l).pos l1.pos)
          rw [hi, hwi, hs, hwsp]
      · intro it hit
        rw [List.mem_singleton] at hit
        subst hit
        rw [htok]
        exact ⟨fun hx => by simp at hx, fun hx => by simp at hx⟩
      · simp only [rank]
        rw [hep]
        omega
    · intro habs
      exact Option.noConfusion habs

end GoDb

namespace GoDb

theorem stepOK_err (pre : List item) {tag : StateTag} {input : List Char}
    {a : Nat} {m : ErrMsg} {l1 : Lexer} {items : List item}
    (hitems : items = pre ++ [errItem m l1])
    (hi : l1.input = input) (hp1 : a ≤ l1.pos) (hp2 : l1.pos ≤ input.length)
    (hgood : ∀ it2 ∈ pre, goodItem it2)
    (hch : ∃ b, Chain input a pre b) :
    stepOK tag input a (items, none, l1) := by
  subst hitems
  unfold stepOK
  refine ⟨hi, hp1, hp2, ?_, ?_⟩
  · intro tag' habs
    exact Option.noConfusion habs
  · intro _
    exact ⟨pre, errItem m l1, rfl, hgood, Or.inl ⟨rfl, rfl, rfl, ⟨_, rfl⟩, hch⟩⟩

theorem step_createLexKeyword (keyword : List Char) (it : itemType)
    (nextAction : StateTag) (tag : StateTag) {l : Lexer}
    (h : l.pos ≤ l.input.length)
    (hit1 : it ≠ .itemError) (hit2 : it ≠ .itemEOF)
    (hlen : 0 < ((keyword.map Char.toLower).zip (keyword.map Char.toUpper)).length)
    (hrank : rank nextAction < rank tag) :
    stepOK tag l.input l.pos (createLexKeyword keyword it nextAction l) := by
  obtain ⟨hwi, hwsp, hwsl, hwp1, hwp2⟩ := skipWhitespace_parts l h
  have hws := skipWhitespace_ws l h
  have hwb : (skipWhitespace l).pos ≤ (skipWhitespace l).input.length := by
    rw [hwi]
    exact hwp2
  unfold createLexKeyword
  dsimp only
  rcases hkl : lexKeywordLoop keyword
      ((keyword.map Char.toLower).zip (keyword.map Char.toUpper)) 0
      (skipWhitespace l) with ⟨mo, l1⟩
  cases mo with
  | some m =>
    obtain ⟨hi, hs, hsl, hp1, hp2⟩ := (lexKeywordLoop_parts keyword _ 0 hwb).1 hkl
    rw [hwi] at hp2
    dsimp only
    exact stepOK_err [] rfl (by rw [hi, hwi]) (by omega) hp2
      (fun it2 hit => absurd hit (List.not_mem_nil it2))
      ⟨l.pos, Chain.nil (Nat.le_refl _) (wsBetween_of_le (Nat.le_refl _))⟩
  | none =>
    obtain ⟨hi, hs, hsl, hp, hp2⟩ := (lexKeywordLoop_parts keyword _ 0 hwb).2 hkl
    rw [hwi] at hp2
    obtain ⟨htok, hei, hep, hes, hesl⟩ := emit_parts it l1
    unfold stepOK
    dsimp only
    refine ⟨by rw [hei, hi, hwi], by rw [hep]; omega, by rw [hep]; exact hp2, ?_, ?_⟩
    · intro tag' htag
      injection htag with he
      subst he
      refine ⟨?_, ?_, ?_⟩
      · rw [htok, hep]
        refine Chain.cons (s := (skipWhitespace l).pos) hwp1 (by omega) hp2 hws
          ?_ ?_ (fun hx => hit1 hx)
          (Chain.nil (Nat.le_refl _) (wsBetween_of_le (Nat.le_refl _)))
        · show byteOff l1.input l1.start = byteOff l.input (skipWhitespace l).pos
          rw [hi, hwi, hs, hwsp]
        · show ItemVal.text (seg l1.input l1.start l1.pos) =
            .text (seg l.input (skipWhitespace l).pos l1.pos)
          rw [hi, hwi, hs, hwsp]
      · intro it2 hit
        rw [List.mem_singleton] at hit
        subst hit
        rw [htok]
        exact ⟨fun hx => hit1 hx, fun hx => hit2 hx⟩
      · rw [hep]
        omega
    · intro habs
      exact Option.noConfusion habs

theorem step_afterValueExpr (emitted : List item) {l : Lexer} {a : Nat}
    (h : l.pos ≤ l.input.length) (ha : a < l.pos)
    (hchain : Chain l.input a emitted l.pos)
    (hgood : ∀ it2 ∈ emitted, goodItem it2) :
    stepOK .valueExprList l.input a (lexAfterValueExpr emitted l) := by
  obtain ⟨hwi, hwsp, hwsl, hwp1, hwp2⟩ := skipWhitespace_parts l h
  have hws := skipWhitespace_ws l h
  have hchain0 : Chain l.input a emitted (skipWhitespace l).pos :=
    hchain.extend_right hwp1 hws
  unfold lexAfterValueExpr
  dsimp only
  rcases hn : next (skipWhitespace l) with ⟨ro, l1⟩
  cases ro with
  | none =>
    obtain ⟨hr, hi, hp, hs, hsl, hw⟩ := next_eq_none_parts hn
    dsimp only
    exact stepOK_err emitted rfl (by rw [hi, hwi]) (by rw [hp]; omega)
      (by rw [hp]; exact hwp2) hgood ⟨l.pos, hchain⟩
  | some r =>
    obtain ⟨hr, hi, hp, hs, hsl, hw⟩ := next_eq_some_parts hn
    have hlt : (skipWhitespace l).pos < l.input.length := by
      have := (List.getElem?_eq_some.mp hr).1
      rw [hwi] at this
      exact this
    dsimp only
    by_cases hcomma : r = ','
    · rw [if_pos hcomma]
      obtain ⟨htok, hei, hep, hes, hesl⟩ := emit_parts .itemComma l1
      unfold stepOK
      refine ⟨by rw [hei, hi, hwi], by rw [hep, hp]; omega, by rw [hep, hp]; omega,
        ?_, ?_⟩
      · intro tag' htag
        injection htag with he
        subst he
        refine ⟨?_, ?_, ?_⟩
        · rw [hep, htok]
          refine Chain.append hchain0 ?_
          refine Chain.cons (s := (skipWhitespace l).pos) (Nat.le_refl _) (by omega)
            (by omega) (wsBetween_of_le (Nat.le_refl _)) ?_ ?_
            (fun hx => by simp at hx)
            (Chain.nil (Nat.le_refl _) (wsBetween_of_le (Nat.le_refl _)))
          · show byteOff l1.input l1.start = byteOff l.input (skipWhitespace l).pos
            rw [hi, hwi, hs, hwsp]
          · show ItemVal.text (seg l1.input l1.start l1.pos) =
              .text (seg l.input (skipWhitespace l).pos l1.pos)
            rw [hi, hwi, hs, hwsp]
        · intro it2 hit
          rw [List.mem_append] at hit
          rcases hit with hit | hit
          · exact hgood it2 hit
          · rw [List.mem_singleton] at hit
            subst hit
            rw [htok]
            exact ⟨fun hx => by simp at hx, fun hx => by simp at hx⟩
        · rw [hep, hp]
          omega
      · intro habs
        exact Option.noConfusion habs
    · rw [if_neg hcomma]
      by_cases hf : r = 'f' ∨ r = 'F'
      · rw [if_pos hf]
        have hwne : l1.width ≠ 0 := by
          rw [hw]
          have := Char.utf8Size_pos r
          omega
        have hbp : (backup l1).pos = l1.pos - 1 := backup_pos_of_width_ne hwne
        obtain ⟨hbi, hbs, hbsl, _, _⟩ := backup_parts l1
        unfold stepOK
        refine ⟨by rw [hbi, hi, hwi], by rw [hbp, hp]; omega, by rw [hbp, hp]; omega,
          ?_, ?_⟩
        · intro tag' htag
          injection htag with he
          subst he
          refine ⟨?_, hgood, ?_⟩
          · rw [hbp, hp]
            simp only [Nat.add_sub_cancel]
            exact hchain0
          · simp only [rank]
            rw [hbp, hp]
            omega
        · intro habs
          exact Option.noConfusion habs
      · rw [if_neg hf]
        exact stepOK_err emitted rfl (by rw [hi, hwi]) (by rw [hp]; omega)
          (by rw [hp]; omega) hgood ⟨l.pos, hchain⟩

end GoDb

namespace GoDb

/-- Common tail of the `lexValueExprList` success branches: a sub-scanner
consumed `[skipWhitespace l .pos, l3.pos)`, the token is emitted, and the
second half takes over. -/
theorem stepOK_emit_then_after (t : itemType) {l l3 : Lexer}
    (h : l.pos ≤ l.input.length)
    (ht1 : t ≠ .itemError) (ht2 : t ≠ .itemEOF)
    (h3i : l3.input = l.input)
    (h3s : l3.start = (skipWhitespace l).pos)
    (h3p1 : (skipWhitespace l).pos < l3.pos)
    (h3p2 : l3.pos ≤ l.input.length) :
    stepOK .valueExprList l.input l.pos
      (lexAfterValueExpr [(emit t l3).1] (emit t l3).2) := by
  obtain ⟨hwi, hwsp, hwsl, hwp1, hwp2⟩ := skipWhitespace_parts l h
  have hws := skipWhitespace_ws l h
  obtain ⟨htok, hei, hep, hes, hesl⟩ := emit_parts t l3
  have h1 : (emit t l3).2.pos ≤ (emit t l3).2.input.length := by
    rw [hep, hei, h3i]
    exact h3p2
  have h2 : l.pos < (emit t l3).2.pos := by
    rw [hep]
    omega
  have h3 : Chain (emit t l3).2.input l.pos [(emit t l3).1] (emit t l3).2.pos := by
    rw [hei, h3i, hep]
    refine Chain.cons (s := (skipWhitespace l).pos) hwp1 h3p1 h3p2 hws ?_ ?_
      (fun hx => ht1 hx)
      (Chain.nil (Nat.le_refl _) (wsBetween_of_le (Nat.le_refl _)))
    · show byteOff l3.input l3.start = byteOff l.input (skipWhitespace l).pos
      rw [h3i, h3s]
    · show ItemVal.text (seg l3.input l3.start l3.pos) =
        .text (seg l.input (skipWhitespace l).pos l3.pos)
      rw [h3i, h3s]
  have h4 : ∀ it2 ∈ [(emit t l3).1], goodItem it2 := by
    intro it2 hit
    rw [List.mem_singleton] at hit
    subst hit
    rw [htok]
    exact ⟨fun hx => ht1 hx, fun hx => ht2 hx⟩
  have hres := step_afterValueExpr [(emit t l3).1] h1 h2 h3 h4
  rw [hei, h3i] at hres
  exact hres

theorem step_valueExprList {l : Lexer} (h : l.pos ≤ l.input.length) :
    stepOK .valueExprList l.input l.pos (lexValueExprList l) := by
  obtain ⟨hwi, hwsp, hwsl, hwp1, hwp2⟩ := skipWhitespace_parts l h
  have hws := skipWhitespace_ws l h
  unfold lexValueExprList
  dsimp only
  rcases hn : next (skipWhitespace l) with ⟨ro, l1⟩
  cases ro with
  | none =>
    obtain ⟨hr, hi, hp, hs, hsl, hw⟩ := next_eq_none_parts hn
    dsimp only
    exact stepOK_err [] rfl (by rw [hi, hwi]) (by rw [hp]; omega)
      (by rw [hp]; exact hwp2)
      (fun it2 hit => absurd hit (List.not_mem_nil it2))
      ⟨l.pos, Chain.nil (Nat.le_refl _) (wsBetween_of_le (Nat.le_refl _))⟩
  | some r =>
    obtain ⟨hr, hi, hp, hs, hsl, hw⟩ := next_eq_some_parts hn
    have hlt : (skipWhitespace l).pos < l.input.length := by
      have := (List.getElem?_eq_some.mp hr).1
      rw [hwi] at this
      exact this
    have hwne : l1.width ≠ 0 := by
      rw [hw]
      have := Char.utf8Size_pos r
      omega
    have hbp : (backup l1).pos = l1.pos - 1 := backup_pos_of_width_ne hwne
    obtain ⟨hbi, hbs, hbsl, _, _⟩ := backup_parts l1
    have hb2 : (backup l1).pos = (skipWhitespace l).pos := by
      rw [hbp, hp]
      omega
    have hbb : (backup l1).pos ≤ (backup l1).input.length := by
      rw [hb2, hbi, hi, hwi]
      omega
    have hbchar : (backup l1).input[(backup l1).pos]? = some r := by
      rw [hbi, hi, hb2]
      exact hr
    dsimp only
    by_cases hstar : r = '*'
    · rw [if_pos hstar]
      exact stepOK_emit_then_after .itemStar h (by decide) (by decide)
        (by rw [hi, hwi]) (by rw [hs, hwsp]) (by omega) (by omega)
    · rw [if_neg hstar]
      by_cases hq : r = '\''
      · rw [if_pos hq]
        rcases hss : scanString (backup l1) with ⟨bs, l3⟩
        have hadv : Adv (backup l1) l3 := by
          have h1 := scanString_adv hbb
          rw [hss] at h1
          exact h1
        obtain ⟨h3i, h3s, h3sl, h3p1, h3p2⟩ := hadv
        rw [hbi, hi, hwi] at h3p2
        cases bs with
        | false =>
          dsimp only
          exact stepOK_err [] rfl (by rw [h3i, hbi, hi, hwi]) (by omega)
            h3p2 (fun it2 hit => absurd hit (List.not_mem_nil it2))
            ⟨l.pos, Chain.nil (Nat.le_refl _) (wsBetween_of_le (Nat.le_refl _))⟩
        | true =>
          dsimp only
          have hsp : (backup l1).pos + 1 ≤ l3.pos := by
            have h1 := scanString_progress hbb (by rw [hss])
            rw [hss] at h1
            exact h1
          exact stepOK_emit_then_after .itemString h (by decide) (by decide)
            (by rw [h3i, hbi, hi, hwi]) (by rw [h3s, hbs, hs, hwsp])
            (by omega) h3p2
      · rw [if_neg hq]
        by_cases hnum : r = '+' ∨ r = '-' ∨ ('0' ≤ r ∧ r ≤ '9')
        · rw [if_pos hnum]
          rcases hsn : scanNumber (backup l1) with ⟨bs, l3⟩
          have hadv : Adv (backup l1) l3 := by
            have h1 := scanNumber_adv hbb
            rw [hsn] at h1
            exact h1
          obtain ⟨h3i, h3s, h3sl, h3p1, h3p2⟩ := hadv
          rw [hbi, hi, hwi] at h3p2
          cases bs with
          | false =>
            dsimp only
            exact stepOK_err [] rfl (by rw [h3i, hbi, hi, hwi]) (by omega)
              h3p2 (fun it2 hit => absurd hit (List.not_mem_nil it2))
              ⟨l.pos, Chain.nil (Nat.le_refl _) (wsBetween_of_le (Nat.le_refl _))⟩
          | true =>
            dsimp only
            have hsp : (backup l1).pos + 1 ≤ l3.pos := by
              have h1 := scanNumber_progress hbb hbchar hnum
              rw [hsn] at h1
              exact h1
            exact stepOK_emit_then_after .itemNumber h (by decide) (by decide)
              (by rw [h3i, hbi, hi, hwi]) (by rw [h3s, hbs, hs, hwsp])
              (by omega) h3p2
        · rw [if_neg hnum]
          by_cases hal : isAlpha r
          · rw [if_pos hal]
            rcases hsi2 : scanIdentifier (backup l1) with ⟨bs, l3⟩
            have hadv : Adv (backup l1) l3 := by
              have h1 := scanIdentifier_adv hbb
              rw [hsi2] at h1
              exact h1
            obtain ⟨h3i, h3s, h3sl, h3p1, h3p2⟩ := hadv
            rw [hbi, hi, hwi] at h3p2
            cases bs with
            | false =>
              dsimp only
              exact stepOK_err [] rfl (by rw [h3i, hbi, hi, hwi]) (by omega)
                h3p2 (fun it2 hit => absurd hit (List.not_mem_nil it2))
                ⟨l.pos, Chain.nil (Nat.le_refl _) (wsBetween_of_le (Nat.le_refl _))⟩
            | true =>
              dsimp only
              have hsp : (backup l1).pos + 1 ≤ l3.pos := by
                have h1 := scanIdentifier_success_pos hbb (by rw [hsi2])
                rw [hsi2] at h1
                exact h1
              exact stepOK_emit_then_after .itemIdentifier h (by decide) (by decide)
                (by rw [h3i, hbi, hi, hwi]) (by rw [h3s, hbs, hs, hwsp])
                (by omega) h3p2
          · rw [if_neg hal]
            exact stepOK_err [] rfl (by rw [hi, hwi]) (by rw [hp]; omega)
              (by rw [hp]; omega)
              (fun it2 hit => absurd hit (List.not_mem_nil it2))
              ⟨l.pos, Chain.nil (Nat.le_refl _) (wsBetween_of_le (Nat.le_refl _))⟩

end GoDb

namespace GoDb

theorem step_runState (tag : StateTag) {l : Lexer} (h : l.pos ≤ l.input.length) :
    stepOK tag l.input l.pos (runState tag l) := by
  cases tag with
  | startStatement => exact step_startStatement h
  | selectKeyword =>
    exact step_createLexKeyword selectChars .itemSelect .valueExprList
      .selectKeyword h (by decide) (by decide) (by decide) (by decide)
  | valueExprList => exact step_valueExprList h
  | fromKeyword =>
    exact step_createLexKeyword fromChars .itemFrom .fromTableName
      .fromKeyword h (by decide) (by decide) (by decide) (by decide)
  | fromTableName => exact step_fromTableName h
  | endOfStatement => exact step_endOfStatement h

/-- Any run with enough fuel halts with the collected items being a chain
of good tokens followed by exactly one terminal item. -/
theorem runGo_ok : ∀ (fuel : Nat) (tag : StateTag) (l : Lexer),
    l.pos ≤ l.input.length →
    l.input.length - l.pos + rank tag < fuel →
    ∃ good e, runGo fuel tag l = some (good ++ [e]) ∧
      (∀ it2 ∈ good, goodItem it2) ∧
      ((e.typ = .itemError ∧ (∃ m, e.val = .err m) ∧
        (∃ b, Chain l.input l.pos good b))
       ∨ (e.typ = .itemEOF ∧ ∃ b, Chain l.input l.pos (good ++ [e]) b)) := by
  intro fuel
  induction fuel with
  | zero =>
    intro tag l h hm
    omega
  | succ n ih =>
    intro tag l h hm
    have hstep := step_runState tag h
    rcases hrs : runState tag l with ⟨items, oTag, l'⟩
    rw [hrs] at hstep
    unfold stepOK at hstep
    dsimp only at hstep
    obtain ⟨s1, s2, s3, s4, s5⟩ := hstep
    cases oTag with
    | none =>
      obtain ⟨good, e, hitems, hgood, hcase⟩ := s5 rfl
      refine ⟨good, e, ?_, hgood, ?_⟩
      · show runGo (n + 1) tag l = some (good ++ [e])
        unfold runGo
        rw [hrs]
        dsimp only
        rw [hitems]
      · rcases hcase with ⟨he, hpe, hle, hme, hch⟩ | ⟨he, hch⟩
        · exact Or.inl ⟨he, hme, hch⟩
        · refine Or.inr ⟨he, ⟨l'.pos, ?_⟩⟩
          rw [← hitems]
          exact hch
    | some tag' =>
      obtain ⟨hchain, hgood1, hmeas⟩ := s4 tag' rfl
      have h' : l'.pos ≤ l'.input.length := by
        rw [s1]
        exact s3
      have hm' : l'.input.length - l'.pos + rank tag' < n := by
        rw [s1]
        omega
      obtain ⟨good, e, hrun, hgood2, hcase⟩ := ih tag' l' h' hm'
      refine ⟨items ++ good, e, ?_, ?_, ?_⟩
      · show runGo (n + 1) tag l = some (items ++ good ++ [e])
        unfold runGo
        rw [hrs]
        dsimp only
        rw [hrun]
        dsimp only
        rw [List.append_assoc]
      · intro it2 hit
        rw [List.mem_append] at hit
        rcases hit with hit | hit
        · exact hgood1 it2 hit
        · exact hgood2 it2 hit
      · rcases hcase with ⟨he, hme, b, hch⟩ | ⟨he, b, hch⟩
        · refine Or.inl ⟨he, hme, ⟨b, ?_⟩⟩
          rw [s1] at hch
          exact hchain.append hch
        · refine Or.inr ⟨he, ⟨b, ?_⟩⟩
          rw [s1] at hch
          rw [List.append_assoc]
          exact hchain.append hch

end GoDb

namespace GoDb

/-- C2: for every input, the scan's output is a list of non-Error tokens
followed by one terminal item; the non-Error tokens (including the
EndOfInput token when the scan succeeds) form a `Chain`: they are
received in input order, their `val` is exactly the input slice of their
span, their `pos` is the byte offset of that span's start, the spans are
non-empty, non-overlapping and strictly increasing, and the gaps between
consecutive spans (and before the first) hold only whitespace. -/
theorem C2_token_spans (input : List Char) :
    ∃ good e b, lexAll input = good ++ [e] ∧
      (∀ it2 ∈ good, it2.typ ≠ .itemError) ∧
      ((e.typ = .itemError ∧ Chain input 0 good b) ∨
       (e.typ = .itemEOF ∧ Chain input 0 (good ++ [e]) b)) := by
  obtain ⟨good, e, hrun, hgood, hcase⟩ :=
    runGo_ok (input.length + 7) .startStatement (lexInit input)
      (Nat.zero_le _)
      (by show input.length - 0 + 5 < input.length + 7; omega)
  have hall : lexAll input = good ++ [e] := by
    unfold lexAll
    rw [hrun]
    exact Option.getD_some
  rcases hcase with ⟨he, hme, b, hch⟩ | ⟨he, b, hch⟩
  · exact ⟨good, e, b, hall, fun it2 hit => (hgood it2 hit).1, Or.inl ⟨he, hch⟩⟩
  · exact ⟨good, e, b, hall, fun it2 hit => (hgood it2 hit).1, Or.inr ⟨he, hch⟩⟩

/-- C3: (first conjunct) every scan's stream ends with exactly one
terminal item — an Error or the EndOfInput token — and no Error or
EndOfInput appears before it, so an error is terminal and nothing
follows it; (second conjunct) whenever a state function halts the
machine, any Error item it emitted carries the halting lexer's pending
byte offset (`byteOff input start`), its pending start line, and a
structured message. -/
theorem C3_error_terminal :
    (∀ input : List Char, ∃ good e, lexAll input = good ++ [e] ∧
      (∀ it2 ∈ good, it2.typ ≠ .itemError ∧ it2.typ ≠ .itemEOF) ∧
      (e.typ = .itemError ∨ e.typ = .itemEOF)) ∧
    (∀ (tag : StateTag) (l l' : Lexer) (items : List item),
      l.pos ≤ l.input.length →
      runState tag l = (items, none, l') →
      ∀ e ∈ items, e.typ = .itemError →
        e.pos = byteOff l'.input l'.start ∧ e.line = l'.startLine ∧
        ∃ m, e.val = .err m) := by
  constructor
  · intro input
    obtain ⟨good, e, hrun, hgood, hcase⟩ :=
      runGo_ok (input.length + 7) .startStatement (lexInit input)
        (Nat.zero_le _)
        (by show input.length - 0 + 5 < input.length + 7; omega)
    have hall : lexAll input = good ++ [e] := by
      unfold lexAll
      rw [hrun]
      exact Option.getD_some
    refine ⟨good, e, hall, fun it2 hit => hgood it2 hit, ?_⟩
    rcases hcase with ⟨he, _⟩ | ⟨he, _⟩
    · exact Or.inl he
    · exact Or.inr he
  · intro tag l l' items h hrs e hmem htyp
    have hstep := step_runState tag h
    rw [hrs] at hstep
    unfold stepOK at hstep
    dsimp only at hstep
    obtain ⟨s1, s2, s3, s4, s5⟩ := hstep
    obtain ⟨good, e0, hitems, hgood, hcase⟩ := s5 rfl
    rw [hitems, List.mem_append] at hmem
    rcases hmem with hmem | hmem
    · exact absurd htyp (hgood e hmem).1
    · rw [List.mem_singleton] at hmem
      subst hmem
      rcases hcase with ⟨he, hpe, hle, hme, _⟩ | ⟨he, _⟩
      · exact ⟨hpe, hle, hme⟩
      · rw [he] at htyp
        exact absurd htyp (by decide)

/-- C9: every started scan terminates — with the fuel `lexAll` supplies
the state machine reaches a halt (`runGo` returns `some`), and the token
stream ends with exactly one terminal item, Error or EndOfInput, with no
terminal item before it. -/
theorem C9_terminates (input : List Char) :
    ∃ pre t, runGo (input.length + 7) .startStatement (lexInit input) =
        some (pre ++ [t]) ∧
      (∀ it2 ∈ pre, it2.typ ≠ .itemError ∧ it2.typ ≠ .itemEOF) ∧
      (t.typ = .itemError ∨ t.typ = .itemEOF) := by
  obtain ⟨good, e, hrun, hgood, hcase⟩ :=
    runGo_ok (input.length + 7) .startStatement (lexInit input)
      (Nat.zero_le _)
      (by show input.length - 0 + 5 < input.length + 7; omega)
  refine ⟨good, e, hrun, fun it2 hit => hgood it2 hit, ?_⟩
  rcases hcase with ⟨he, _⟩ | ⟨he, _⟩
  · exact Or.inl he
  · exact Or.inr he

end GoDb

namespace GoDb

/-! ## C5: the identifier sub-scanner characterized -/

theorem bool_eq_false {b : Bool} (h : ¬ b = true) : b = false := by
  cases b with
  | false => rfl
  | true => exact absurd rfl h

end GoDb

namespace GoDb

/-- C5 (amended): the Identifier sub-scanner succeeds iff the rune at the
cursor is a letter or underscore and the rune just past the consumed run
of letters/digits/underscores fails the scanner's word-boundary check
(`isAlphaNumeric`); on success the cursor stands at the end of that full
run and the pending window start is untouched, so the consumed text is
exactly the run. Contrary to the claim's final clause, on a leading-rune
failure the cursor position IS restored: `accept` re-reads and backs up,
leaving `pos` unchanged. -/
theorem C5_amended (l : Lexer) (h : l.pos ≤ l.input.length) :
    ((scanIdentifier l).1 = true ↔
      ∃ c, l.input[l.pos]? = some c ∧ c ∈ identChars ∧
        isAlphaNumericOpt
          (l.input[l.pos + runLen identCharsAndDigits l.input l.pos]?) = false) ∧
    ((scanIdentifier l).1 = true →
      (scanIdentifier l).2.pos = l.pos + runLen identCharsAndDigits l.input l.pos ∧
      (scanIdentifier l).2.start = l.start ∧
      seg l.input l.pos ((scanIdentifier l).2.pos) =
        runAt identCharsAndDigits l.input l.pos) ∧
    (∀ c, l.input[l.pos]? = some c → c ∉ identChars →
      (scanIdentifier l).2.pos = l.pos) ∧
    (l.input[l.pos]? = none → (scanIdentifier l).2.pos = l.pos) := by
  refine ⟨⟨?_, ?_⟩, ?_, ?_, ?_⟩
  · intro hs
    cases hr : l.input[l.pos]? with
    | none =>
      rw [scanIdentifier_eq_none hr] at hs
      simp at hs
    | some c =>
      by_cases hm : c ∈ identChars
      · by_cases hb : isAlphaNumericOpt
            (l.input[l.pos + runLen identCharsAndDigits l.input l.pos]?) = true
        · rw [scanIdentifier_after_first h hr hm] at hs
          simp [hb] at hs
        · exact ⟨c, rfl, hm, bool_eq_false hb⟩
      · rw [scanIdentifier_eq_not_mem hr hm] at hs
        simp at hs
  · rintro ⟨c, hr, hm, hb⟩
    rw [scanIdentifier_eq_success h hr hm hb]
  · intro hs
    cases hr : l.input[l.pos]? with
    | none =>
      rw [scanIdentifier_eq_none hr] at hs
      simp at hs
    | some c =>
      by_cases hm : c ∈ identChars
      · by_cases hb : isAlphaNumericOpt
            (l.input[l.pos + runLen identCharsAndDigits l.input l.pos]?) = true
        · rw [scanIdentifier_after_first h hr hm] at hs
          simp [hb] at hs
        · rw [scanIdentifier_eq_success h hr hm (bool_eq_false hb)]
          exact ⟨rfl, rfl, seg_runAt identCharsAndDigits l.input l.pos⟩
      · rw [scanIdentifier_eq_not_mem hr hm] at hs
        simp at hs
  · intro c hr hm
    rw [scanIdentifier_eq_not_mem hr hm]
  · intro hr
    rw [scanIdentifier_eq_none hr]

/-- Witness: `C5_amended` applied at the scan of `"ab;"` from position 0;
the leading rune is a letter and the run's boundary is `';'`. -/
theorem C5_amended_witness :
    (scanIdentifier (lexInit "ab;".toList)).1 = true :=
  ((C5_amended (lexInit "ab;".toList) (by decide)).1).mpr
    ⟨'a', by decide, by decide, by decide⟩

end GoDb

namespace GoDb

/-! ## C7: the string sub-scanner against the claim's rules -/

theorem drop_eq_nil_of_get_none {input : List Char} {p : Nat}
    (hr : input[p]? = none) : input.drop p = [] := by
  have hle : input.length ≤ p := by
    by_contra hlt
    push_neg at hlt
    rw [List.getElem?_eq_getElem hlt] at hr
    exact Option.noConfusion hr
  exact List.drop_eq_nil_of_le hle

theorem drop_eq_cons_of_get {input : List Char} {p : Nat} {r : Char}
    (hr : input[p]? = some r) : input.drop p = r :: input.drop (p + 1) := by
  obtain ⟨hlt, he⟩ := List.getElem?_eq_some.mp hr
  rw [List.drop_eq_getElem_cons hlt, he]

/-- Claim-side description of the String sub-scanner (C7), written from
the claim's rules, not from the code: reading the runes after the opening
quote, a backslash escapes the following rune (escaping end-of-input or a
newline fails), an unescaped quote followed by another quote is a literal
embedded quote, an unescaped quote otherwise closes the string, and
end-of-input or an unescaped newline before closing fails. `some n` means
success after consuming `n` runes (closing quote included). -/
def scanStringSpec : List Char → Option Nat
  | [] => none
  | [r] =>
    if r = '\\' then none
    else if r = '\n' then none
    else if r = '\'' then some 1
    else none
  | r :: r2 :: rest2 =>
    if r = '\\' then
      if r2 = '\n' then none
      else (scanStringSpec rest2).map (fun n => n + 2)
    else if r = '\n' then none
    else if r = '\'' then
      if r2 = '\'' then (scanStringSpec rest2).map (fun n => n + 2)
      else some 1
    else (scanStringSpec (r2 :: rest2)).map (fun n => n + 1)

end GoDb

namespace GoDb

set_option maxHeartbeats 1000000 in
/-- The string-scanner loop agrees with the claim's rules: `some n` means
the loop succeeds having consumed exactly `n` runes, `none` means it
fails. -/
theorem scanStringGo_spec : ∀ (fuel : Nat) (l : Lexer),
    l.pos ≤ l.input.length →
    l.input.length - l.pos < fuel →
    (∀ n, scanStringSpec (l.input.drop l.pos) = some n →
      (scanStringGo fuel l).1 = true ∧ (scanStringGo fuel l).2.pos = l.pos + n) ∧
    (scanStringSpec (l.input.drop l.pos) = none →
      (scanStringGo fuel l).1 = false) := by
  intro fuel
  induction fuel with
  | zero =>
    intro l h hm
    omega
  | succ f ih =>
    intro l h hm
    cases hr : l.input[l.pos]? with
    | none =>
      rw [drop_eq_nil_of_get_none hr]
      constructor
      · intro n hn
        simp [scanStringSpec] at hn
      · intro _
        unfold scanStringGo
        rcases hn1 : next l with ⟨ro, l1⟩
        have hro : ro = none := by
          have hf := next_fst l
          rw [hn1] at hf
          dsimp only at hf
          rw [hf, hr]
        subst hro
        rfl
    | some r =>
      have hlt : l.pos < l.input.length := (List.getElem?_eq_some.mp hr).1
      rw [drop_eq_cons_of_get hr]
      unfold scanStringGo
      rcases hn1 : next l with ⟨ro, l1⟩
      have hro : ro = some r := by
        have hf := next_fst l
        rw [hn1] at hf
        dsimp only at hf
        rw [hf, hr]
      subst hro
      obtain ⟨_, hi1, hp1, hs1, hsl1, hw1⟩ := next_eq_some_parts hn1
      dsimp only
      by_cases hbs : r = '\\'
      · subst hbs
        rw [if_pos rfl]
        cases hr2 : l.input[l.pos + 1]? with
        | none =>
          rw [drop_eq_nil_of_get_none hr2]
          constructor
          · intro n hn
            simp [scanStringSpec] at hn
          · intro _
            rcases hn2 : next l1 with ⟨ro2, l2⟩
            have hro2 : ro2 = none := by
              have hf := next_fst l1
              rw [hn2] at hf
              dsimp only at hf
              rw [hf, hi1, hp1, hr2]
            subst hro2
            rfl
        | some r2 =>
          rw [drop_eq_cons_of_get hr2]
          rcases hn2 : next l1 with ⟨ro2, l2⟩
          have hro2 : ro2 = some r2 := by
            have hf := next_fst l1
            rw [hn2] at hf
            dsimp only at hf
            rw [hf, hi1, hp1, hr2]
          subst hro2
          obtain ⟨_, hi2, hp2, hs2, hsl2, hw2⟩ := next_eq_some_parts hn2
          have hlt2 : l.pos + 1 < l.input.length := (List.getElem?_eq_some.mp hr2).1
          dsimp only
          by_cases hnl : r2 = '\n'
          · subst hnl
            rw [if_pos rfl]
            constructor
            · intro n hn
              simp only [scanStringSpec] at hn
              rw [if_true, if_true] at hn
              exact Option.noConfusion hn
            · intro _
              rfl
          · rw [if_neg hnl]
            have h2 : l2.pos ≤ l2.input.length := by
              rw [hi2, hp2, hi1, hp1]
              omega
            have hm2 : l2.input.length - l2.pos < f := by
              rw [hi2, hp2, hi1, hp1]
              omega
            obtain ⟨ihs, ihn⟩ := ih l2 h2 hm2
            have hdrop2 : l2.input.drop l2.pos = l.input.drop (l.pos + 1 + 1) := by
              rw [hi2, hp2, hi1, hp1]
            rw [hdrop2] at ihs ihn
            constructor
            · intro n hn
              simp only [scanStringSpec] at hn
              rw [if_true, if_neg hnl] at hn
              obtain ⟨m, hsm, hnm⟩ := Option.map_eq_some'.mp hn
              obtain ⟨hf1, hf2⟩ := ihs m hsm
              refine ⟨hf1, ?_⟩
              rw [hf2, hp2, hp1]
              omega
            · intro hn
              simp only [scanStringSpec] at hn
              rw [if_true, if_neg hnl] at hn
              exact ihn (Option.map_eq_none'.mp hn)
      · rw [if_neg hbs]
        by_cases hnl : r = '\n'
        · subst hnl
          rw [if_pos rfl]
          constructor
          · intro n hn
            cases hr2 : l.input[l.pos + 1]? with
            | none =>
              rw [drop_eq_nil_of_get_none hr2] at hn
              simp [scanStringSpec] at hn
            | some r2 =>
              rw [drop_eq_cons_of_get hr2] at hn
              simp only [scanStringSpec] at hn
              rw [if_neg (by decide), if_true] at hn
              exact Option.noConfusion hn
          · intro _
            rfl
        · rw [if_neg hnl]
          by_cases hq : r = '\''
          · subst hq
            rw [if_pos rfl]
            rcases hn2 : next l1 with ⟨ro2, l2⟩
            dsimp only
            cases hr2 : l.input[l.pos + 1]? with
            | none =>
              have hro2 : ro2 = none := by
                have hf := next_fst l1
                rw [hn2] at hf
                dsimp only at hf
                rw [hf, hi1, hp1, hr2]
              subst hro2
              obtain ⟨_, hi2, hp2, hs2, hsl2, hw2⟩ := next_eq_none_parts hn2
              rw [drop_eq_nil_of_get_none hr2]
              rw [if_neg (fun hx => Option.noConfusion hx)]
              constructor
              · intro n hn
                simp only [scanStringSpec] at hn
                rw [if_neg (by decide), if_neg (by decide), if_true] at hn
                have hn1' := Option.some.inj hn
                refine ⟨rfl, ?_⟩
                rw [backup_of_width_zero hw2, hp2, hp1]
                omega
              · intro hn
                simp only [scanStringSpec] at hn
                rw [if_neg (by decide), if_neg (by decide), if_true] at hn
                exact Option.noConfusion hn
            | some r2 =>
              have hro2 : ro2 = some r2 := by
                have hf := next_fst l1
                rw [hn2] at hf
                dsimp only at hf
                rw [hf, hi1, hp1, hr2]
              subst hro2
              obtain ⟨_, hi2, hp2, hs2, hsl2, hw2⟩ := next_eq_some_parts hn2
              have hlt2 : l.pos + 1 < l.input.length := (List.getElem?_eq_some.mp hr2).1
              rw [drop_eq_cons_of_get hr2]
              by_cases hq2 : r2 = '\''
              · subst hq2
                rw [if_pos rfl]
                have h2 : l2.pos ≤ l2.input.length := by
                  rw [hi2, hp2, hi1, hp1]
                  omega
                have hm2 : l2.input.length - l2.pos < f := by
                  rw [hi2, hp2, hi1, hp1]
                  omega
                obtain ⟨ihs, ihn⟩ := ih l2 h2 hm2
                have hdrop2 : l2.input.drop l2.pos = l.input.drop (l.pos + 1 + 1) := by
                  rw [hi2, hp2, hi1, hp1]
                rw [hdrop2] at ihs ihn
                constructor
                · intro n hn
                  simp only [scanStringSpec] at hn
                  rw [if_neg (by decide), if_neg (by decide), if_true,
                    if_true] at hn
                  obtain ⟨m, hsm, hnm⟩ := Option.map_eq_some'.mp hn
                  obtain ⟨hf1, hf2⟩ := ihs m hsm
                  refine ⟨hf1, ?_⟩
                  rw [hf2, hp2, hp1]
                  omega
                · intro hn
                  simp only [scanStringSpec] at hn
                  rw [if_neg (by decide), if_neg (by decide), if_true,
                    if_true] at hn
                  exact ihn (Option.map_eq_none'.mp hn)
              · rw [if_neg (fun hx => hq2 (Option.some.inj hx))]
                have hwne2 : l2.width ≠ 0 := by
                  rw [hw2]
                  have := Char.utf8Size_pos r2
                  omega
                constructor
                · intro n hn
                  simp only [scanStringSpec] at hn
                  rw [if_neg (by decide), if_neg (by decide), if_true,
                    if_neg hq2] at hn
                  have hn1' := Option.some.inj hn
                  refine ⟨rfl, ?_⟩
                  rw [backup_pos_of_width_ne hwne2, hp2, hp1]
                  omega
                · intro hn
                  simp only [scanStringSpec] at hn
                  rw [if_neg (by decide), if_neg (by decide), if_true,
                    if_neg hq2] at hn
                  exact Option.noConfusion hn
          · rw [if_neg hq]
            have h2 : l1.pos ≤ l1.input.length := by
              rw [hi1, hp1]
              omega
            have hm2 : l1.input.length - l1.pos < f := by
              rw [hi1, hp1]
              omega
            obtain ⟨ihs, ihn⟩ := ih l1 h2 hm2
            have hdrop1 : l1.input.drop l1.pos = l.input.drop (l.pos + 1) := by
              rw [hi1, hp1]
            rw [hdrop1] at ihs ihn
            constructor
            · intro n hn
              cases hr2 : l.input[l.pos + 1]? with
              | none =>
                rw [drop_eq_nil_of_get_none hr2] at hn
                simp only [scanStringSpec] at hn
                rw [if_neg hbs, if_neg hnl, if_neg hq] at hn
                exact Option.noConfusion hn
              | some r2 =>
                rw [drop_eq_cons_of_get hr2] at hn
                simp only [scanStringSpec] at hn
                rw [if_neg hbs, if_neg hnl, if_neg hq] at hn
                obtain ⟨m, hsm, hnm⟩ := Option.map_eq_some'.mp hn
                rw [drop_eq_cons_of_get hr2] at ihs
                obtain ⟨hf1, hf2⟩ := ihs m hsm
                refine ⟨hf1, ?_⟩
                rw [hf2, hp1]
                omega
            · intro hn
              cases hr2 : l.input[l.pos + 1]? with
              | none =>
                refine ihn ?_
                rw [drop_eq_nil_of_get_none hr2]
                rfl
              | some r2 =>
                rw [drop_eq_cons_of_get hr2] at hn
                simp only [scanStringSpec] at hn
                rw [if_neg hbs, if_neg hnl, if_neg hq] at hn
                refine ihn ?_
                rw [drop_eq_cons_of_get hr2]
                exact Option.map_eq_none'.mp hn

end GoDb

namespace GoDb

/-- C7: applied at a single quote, the String sub-scanner succeeds
exactly when the claim's rules (`scanStringSpec`) accept the runes after
the opening quote, and then it has consumed the opening quote plus the
`n` runes the rules consume; in particular `'ab''c'` scans as one token
spanning the whole literal (the doubled quote is an embedded quote), and
in a full scan of `select 'ab''c' from t;` it becomes a single String
item whose text is the whole literal. -/
theorem C7_scanString (l : Lexer) (h : l.pos ≤ l.input.length)
    (hq : l.input[l.pos]? = some '\'') :
    (∀ n, scanStringSpec (l.input.drop (l.pos + 1)) = some n →
      (scanString l).1 = true ∧ (scanString l).2.pos = l.pos + 1 + n) ∧
    (scanStringSpec (l.input.drop (l.pos + 1)) = none →
      (scanString l).1 = false) ∧
    (scanString (lexInit "'ab''c'".toList)).1 = true ∧
    (scanString (lexInit "'ab''c'".toList)).2.pos = 7 ∧
    (lexAll "select 'ab''c' from t;".toList)[1]? =
      some ⟨.itemString, 7, .text "'ab''c'".toList, 1⟩ := by
  have hlt : l.pos < l.input.length := (List.getElem?_eq_some.mp hq).1
  unfold scanString
  rcases hn1 : next l with ⟨ro, l1⟩
  have hro : ro = some '\'' := by
    have hf := next_fst l
    rw [hn1] at hf
    dsimp only at hf
    rw [hf, hq]
  subst hro
  obtain ⟨_, hi1, hp1, hs1, hsl1, hw1⟩ := next_eq_some_parts hn1
  dsimp only
  rw [if_pos rfl]
  have hb1 : l1.pos ≤ l1.input.length := by
    rw [hi1, hp1]
    omega
  have hfl : l1.input.length - l1.pos < l.input.length + 1 - l1.pos := by
    rw [hi1]
    omega
  obtain ⟨ihs, ihn⟩ := scanStringGo_spec (l.input.length + 1 - l1.pos) l1 hb1 hfl
  have hdrop : l1.input.drop l1.pos = l.input.drop (l.pos + 1) := by
    rw [hi1, hp1]
  rw [hdrop] at ihs ihn
  refine ⟨?_, ihn, by decide, by decide, by decide⟩
  intro n hn
  obtain ⟨hf1, hf2⟩ := ihs n hn
  refine ⟨hf1, ?_⟩
  rw [hf2, hp1]

/-- Witness: `C7_scanString` applied to the literal `'ab''c'` at the
start of the input. -/
theorem C7_scanString_witness :
    (scanString (lexInit "'ab''c'".toList)).1 = true :=
  (C7_scanString (lexInit "'ab''c'".toList) (by decide) (by decide)).2.2.1

/-- When the keyword-matching loop errors, the error names the expected
lower/upper pair of the keyword position reached and the actual rune
there, which matched neither. -/
theorem lexKeywordLoop_err (keyword : List Char) :
    ∀ (pairs : List (Char × Char)) (index : Nat) (l : Lexer) (m : ErrMsg)
      (l1 : Lexer),
      lexKeywordLoop keyword pairs index l = (some m, l1) →
      ∃ j lo up, pairs[j]? = some (lo, up) ∧
        m = .keywordMismatch lo up (index + j) keyword (l.input[l.pos + j]?) ∧
        l.input[l.pos + j]? ≠ some lo ∧ l.input[l.pos + j]? ≠ some up := by
  intro pairs
  induction pairs with
  | nil =>
    intro index l m l1 he
    simp only [lexKeywordLoop] at he
    exact absurd (congrArg Prod.fst he) (by simp)
  | cons hd rest ih =>
    obtain ⟨lo, up⟩ := hd
    intro index l m l1 he
    simp only [lexKeywordLoop] at he
    have hfst : (next l).1 = l.input[l.pos]? := next_fst l
    by_cases hmatch : (next l).1 = some lo ∨ (next l).1 = some up
    · rw [if_pos hmatch] at he
      obtain ⟨j, lo2, up2, hj, hm2, hne1, hne2⟩ := ih (index + 1) (next l).2 m l1 he
      have hr : ∃ r, l.input[l.pos]? = some r := by
        rcases hmatch with hvm | hvm
        · exact ⟨lo, by rw [← hfst]; exact hvm⟩
        · exact ⟨up, by rw [← hfst]; exact hvm⟩
      obtain ⟨r, hr⟩ := hr
      have hns := next_some hr
      have hi : (next l).2.input = l.input := by rw [hns]
      have hp : (next l).2.pos = l.pos + 1 := by rw [hns]
      rw [hi, hp] at hm2 hne1 hne2
      have e1 : l.pos + 1 + j = l.pos + (j + 1) := by omega
      have e2 : index + 1 + j = index + (j + 1) := by omega
      rw [e1, e2] at hm2
      rw [e1] at hne1 hne2
      refine ⟨j + 1, lo2, up2, ?_, hm2, hne1, hne2⟩
      simpa using hj
    · rw [if_neg hmatch] at he
      injection he with he1 he2
      have hvm : m = .keywordMismatch lo up index keyword (next l).1 :=
        (Option.some.inj he1).symm
      obtain ⟨hne1, hne2⟩ := not_or.mp hmatch
      rw [hfst] at hvm hne1 hne2
      refine ⟨0, lo, up, by simp, ?_, ?_, ?_⟩
      · rw [hvm]
        simp
      · simpa using hne1
      · simpa using hne2

/-- C8: keywords match case-insensitively rune-by-rune — the two casings
`SeLeCt * FROM t;` and `select * from t;` yield the same kinds, byte
offsets and lines, each token's text keeping the input's own casing —
and when a rune matches neither case variant the loop stops with an
error naming the expected pair, the keyword position and the actual
rune. -/
theorem C8_keyword_case :
    ((lexAll "SeLeCt * FROM t;".toList).map
        (fun it2 => (it2.typ, it2.pos, it2.line)) =
      (lexAll "select * from t;".toList).map
        (fun it2 => (it2.typ, it2.pos, it2.line))) ∧
    ((lexAll "SeLeCt * FROM t;".toList).map item.val =
      [.text "SeLeCt".toList, .text "*".toList, .text "FROM".toList,
       .text "t".toList, .text ";".toList]) ∧
    (∀ (keyword : List Char) (pairs : List (Char × Char)) (index : Nat)
       (l : Lexer) (m : ErrMsg) (l1 : Lexer),
      lexKeywordLoop keyword pairs index l = (some m, l1) →
      ∃ j lo up, pairs[j]? = some (lo, up) ∧
        m = .keywordMismatch lo up (index + j) keyword (l.input[l.pos + j]?) ∧
        l.input[l.pos + j]? ≠ some lo ∧ l.input[l.pos + j]? ≠ some up) := by
  refine ⟨by decide, by decide, ?_⟩
  intro keyword pairs index l m l1 he
  exact lexKeywordLoop_err keyword pairs index l m l1 he

end GoDb

namespace GoDb

/-! ## C10: `scanNumber` with an empty digit run -/

theorem accept_fst_of_no (valid : List Char) {l : Lexer}
    (hno : ∀ c, l.input[l.pos]? = some c → c ∉ valid) :
    (accept valid l).1 = false := by
  cases hr : l.input[l.pos]? with
  | none => rw [accept_none hr]
  | some c => rw [accept_not_mem hr (hno c hr)]

/-- The cursor window (input, position, pending start) of `lx` agrees
with that of `l5`: the sub-scanner stages that consume nothing preserve
it. -/
def SameAt (l5 lx : Lexer) : Prop :=
  lx.input = l5.input ∧ lx.pos = l5.pos ∧ lx.start = l5.start

theorem sameAt_rfl (l5 : Lexer) : SameAt l5 l5 := ⟨rfl, rfl, rfl⟩

theorem SameAt.get {l5 lx : Lexer} (hS : SameAt l5 lx) :
    lx.input[lx.pos]? = l5.input[l5.pos]? := by
  rw [hS.1, hS.2.1]

theorem sameAt_accept_false (valid : List Char) {l5 lx : Lexer} (hS : SameAt l5 lx)
    (hno : ∀ c, l5.input[l5.pos]? = some c → c ∉ valid) :
    (accept valid lx).1 = false ∧ SameAt l5 (accept valid lx).2 := by
  have hno2 : ∀ c, lx.input[lx.pos]? = some c → c ∉ valid := by
    intro c hc
    rw [SameAt.get hS] at hc
    exact hno c hc
  refine ⟨accept_fst_of_no valid hno2, ?_⟩
  rcases ha : accept valid lx with ⟨b, la⟩
  have hbf : b = false := by
    have hx := accept_fst_of_no valid hno2
    rw [ha] at hx
    exact hx
  subst hbf
  obtain ⟨hi, hp, hs, _⟩ := accept_eq_false_parts ha
  exact ⟨hi.trans hS.1, hp.trans hS.2.1, hs.trans hS.2.2⟩

theorem acceptRun_stuck {valid : List Char} {l : Lexer} (h : l.pos ≤ l.input.length)
    (hno : ∀ c, l.input[l.pos]? = some c → c ∉ valid) :
    (acceptRun valid l).input = l.input ∧ (acceptRun valid l).pos = l.pos ∧
    (acceptRun valid l).start = l.start := by
  have h0 : runLen valid l.input l.pos = 0 := by
    cases hr : l.input[l.pos]? with
    | none => rw [runLen, runAt_of_none valid hr]; rfl
    | some c => rw [runLen, runAt_nil_of_not_mem hr (hno c hr)]; rfl
  rw [acceptRun_eq valid l h]
  refine ⟨rfl, ?_, rfl⟩
  dsimp only
  rw [h0]
  omega

theorem sameAt_acceptRun (valid : List Char) {l5 lx : Lexer} (hS : SameAt l5 lx)
    (h : l5.pos ≤ l5.input.length)
    (hno : ∀ c, l5.input[l5.pos]? = some c → c ∉ valid) :
    SameAt l5 (acceptRun valid lx) := by
  have h2 : lx.pos ≤ lx.input.length := by
    rw [hS.1, hS.2.1]
    exact h
  have hno2 : ∀ c, lx.input[lx.pos]? = some c → c ∉ valid := by
    intro c hc
    rw [SameAt.get hS] at hc
    exact hno c hc
  obtain ⟨hi, hp, hs⟩ := acceptRun_stuck h2 hno2
  exact ⟨hi.trans hS.1, hp.trans hS.2.1, hs.trans hS.2.2⟩

theorem sameAt_frac (digits : List Char) {l5 lx : Lexer} (hS : SameAt l5 lx)
    (hnd : l5.input[l5.pos]? ≠ some '.') :
    SameAt l5 (scanNumberFrac digits lx) := by
  unfold scanNumberFrac
  obtain ⟨hf, hSa⟩ := sameAt_accept_false ['.'] hS (by
    intro c hc hm
    simp only [List.mem_singleton] at hm
    subst hm
    exact hnd hc)
  rcases ha : accept ['.'] lx with ⟨b, la⟩
  rw [ha] at hf hSa
  dsimp only at hf hSa
  subst hf
  dsimp only
  exact hSa

theorem sameAt_exp (marker : List Char) {l5 lx : Lexer} (hS : SameAt l5 lx)
    (hno : ∀ c, l5.input[l5.pos]? = some c → c ∉ marker) :
    SameAt l5 (scanNumberExp marker lx) := by
  unfold scanNumberExp
  obtain ⟨hf, hSa⟩ := sameAt_accept_false marker hS hno
  rcases ha : accept marker lx with ⟨b, la⟩
  rw [ha] at hf hSa
  dsimp only at hf hSa
  subst hf
  dsimp only
  exact hSa

theorem sameAt_expIf (P : Prop) [hdec : Decidable P] (marker : List Char)
    {l5 lx : Lexer} (hS : SameAt l5 lx)
    (hno : ∀ c, l5.input[l5.pos]? = some c → c ∉ marker) :
    SameAt l5 (if P then scanNumberExp marker lx else lx) := by
  by_cases hP : P
  · simp only [if_pos hP]
    exact sameAt_exp marker hS hno
  · simp only [if_neg hP]
    exact hS

theorem scanNumberFinal_stuck {l5 lx : Lexer} (hS : SameAt l5 lx)
    (hna : isAlphaNumericOpt (l5.input[l5.pos]?) = false)
    (hni : l5.input[l5.pos]? ≠ some 'i') :
    (scanNumberFinal lx).1 = true ∧ (scanNumberFinal lx).2.pos = l5.pos ∧
    (scanNumberFinal lx).2.start = l5.start ∧
    (scanNumberFinal lx).2.input = l5.input := by
  unfold scanNumberFinal
  obtain ⟨hf, hSa⟩ := sameAt_accept_false ['i'] hS (by
    intro c hc hm
    simp only [List.mem_singleton] at hm
    subst hm
    exact hni hc)
  dsimp only
  rw [peek_eq]
  dsimp only
  rw [SameAt.get hSa, hna]
  simp only [Bool.false_eq_true, if_false]
  exact ⟨trivial, hSa.2.1, hSa.2.2, hSa.1⟩

end GoDb

namespace GoDb

/-- When the rune at the cursor is not a letter, digit, underscore or
dot, the whole tail of `scanNumber` (digit run, fraction, exponents,
imaginary suffix, boundary check) consumes nothing and succeeds. -/
theorem scanNumberTail_stuck (digits : List Char) {l5 : Lexer}
    (h : l5.pos ≤ l5.input.length)
    (hdig : ∀ c ∈ digits, isAlphaNumeric c = true)
    (hna : isAlphaNumericOpt (l5.input[l5.pos]?) = false)
    (hnd : l5.input[l5.pos]? ≠ some '.') :
    (scanNumberTail digits l5).1 = true ∧
    (scanNumberTail digits l5).2.pos = l5.pos ∧
    (scanNumberTail digits l5).2.start = l5.start ∧
    (scanNumberTail digits l5).2.input = l5.input := by
  have hchar : ∀ c, l5.input[l5.pos]? = some c → isAlphaNumeric c = false := by
    intro c hc
    rw [hc] at hna
    exact hna
  have hno6 : ∀ c, l5.input[l5.pos]? = some c → c ∉ digits := by
    intro c hc hmem
    have hx := hdig c hmem
    rw [hchar c hc] at hx
    exact Bool.noConfusion hx
  have hnoE : ∀ c, l5.input[l5.pos]? = some c → c ∉ (['e', 'E'] : List Char) := by
    intro c hc hm
    have hx : isAlphaNumeric c = true := by
      simp only [List.mem_cons, List.not_mem_nil, or_false] at hm
      rcases hm with hm | hm
      · subst hm
        decide
      · subst hm
        decide
    rw [hchar c hc] at hx
    exact Bool.noConfusion hx
  have hnoP : ∀ c, l5.input[l5.pos]? = some c → c ∉ (['p', 'P'] : List Char) := by
    intro c hc hm
    have hx : isAlphaNumeric c = true := by
      simp only [List.mem_cons, List.not_mem_nil, or_false] at hm
      rcases hm with hm | hm
      · subst hm
        decide
      · subst hm
        decide
    rw [hchar c hc] at hx
    exact Bool.noConfusion hx
  have hni : l5.input[l5.pos]? ≠ some 'i' := by
    intro he
    have hx : isAlphaNumeric 'i' = true := by decide
    rw [hchar 'i' he] at hx
    exact Bool.noConfusion hx
  have hS6 := sameAt_acceptRun digits (sameAt_rfl l5) h hno6
  have hS7 := sameAt_frac digits hS6 hnd
  have hS8 := sameAt_expIf (digits.length = 10 + 1) ['e', 'E'] hS7 hnoE
  have hS9 := sameAt_expIf (digits.length = 16 + 6 + 1) ['p', 'P'] hS8 hnoP
  exact scanNumberFinal_stuck hS9 hna hni

/-- Entering `scanNumberBody` at such a rune (in particular: the rune
after a lone sign) consumes nothing further and succeeds. -/
theorem scanNumberBody_stuck {l1 : Lexer} (h : l1.pos ≤ l1.input.length)
    (hna : isAlphaNumericOpt (l1.input[l1.pos]?) = false)
    (hnd : l1.input[l1.pos]? ≠ some '.') :
    (scanNumberBody l1).1 = true ∧ (scanNumberBody l1).2.pos = l1.pos ∧
    (scanNumberBody l1).2.start = l1.start ∧
    (scanNumberBody l1).2.input = l1.input := by
  have hchar : ∀ c, l1.input[l1.pos]? = some c → isAlphaNumeric c = false := by
    intro c hc
    rw [hc] at hna
    exact hna
  have hno0 : ∀ c, l1.input[l1.pos]? = some c → c ∉ (['0'] : List Char) := by
    intro c hc hm
    simp only [List.mem_singleton] at hm
    subst hm
    have hx : isAlphaNumeric '0' = true := by decide
    rw [hchar '0' hc] at hx
    exact Bool.noConfusion hx
  unfold scanNumberBody
  obtain ⟨hf, hSa⟩ := sameAt_accept_false ['0'] (sameAt_rfl l1) hno0
  rcases ha : accept ['0'] l1 with ⟨b, l2⟩
  rw [ha] at hf hSa
  dsimp only at hf hSa
  subst hf
  dsimp only
  have h2 : l2.pos ≤ l2.input.length := by
    rw [hSa.1, hSa.2.1]
    exact h
  obtain ⟨ht1, ht2, ht3, ht4⟩ := scanNumberTail_stuck decDigits h2 (by decide)
    (by rw [SameAt.get hSa]; exact hna) (by rw [SameAt.get hSa]; exact hnd)
  exact ⟨ht1, ht2.trans hSa.2.1, ht3.trans hSa.2.2, ht4.trans hSa.1⟩

theorem seg_one {input : List Char} {p : Nat} {c : Char} (hr : input[p]? = some c) :
    seg input p (p + 1) = [c] := by
  unfold seg
  rw [drop_eq_cons_of_get hr]
  simp

theorem seg_two {input : List Char} {p : Nat} {c d : Char}
    (h1 : input[p]? = some c) (h2 : input[p + 1]? = some d) :
    seg input p (p + 2) = [c, d] := by
  unfold seg
  rw [drop_eq_cons_of_get h1, drop_eq_cons_of_get h2]
  have he : p + 2 - p = 2 := by omega
  rw [he]
  rfl

/-- A lone sign whose follower is neither alphanumeric nor a dot is a
complete number: `scanNumber` succeeds having consumed just the sign. -/
theorem scanNumber_sign_only {l : Lexer} {c : Char} (h : l.pos ≤ l.input.length)
    (hr : l.input[l.pos]? = some c) (hc : c ∈ (['+', '-'] : List Char))
    (hna : isAlphaNumericOpt (l.input[l.pos + 1]?) = false)
    (hnd : l.input[l.pos + 1]? ≠ some '.') :
    (scanNumber l).1 = true ∧ (scanNumber l).2.pos = l.pos + 1 ∧
    (scanNumber l).2.start = l.start := by
  unfold scanNumber
  rcases ha : accept ['+', '-'] l with ⟨b, l1⟩
  have hx := accept_mem hr hc
  rw [ha] at hx
  injection hx with hb hl
  subst hb
  dsimp only
  obtain ⟨c2, hc2, _, hi1, hp1, hs1, _⟩ := accept_eq_true_parts ha
  have hlt : l.pos < l.input.length := (List.getElem?_eq_some.mp hr).1
  have h1b : l1.pos ≤ l1.input.length := by
    rw [hi1, hp1]
    omega
  have hg : l1.input[l1.pos]? = l.input[l.pos + 1]? := by
    rw [hi1, hp1]
  obtain ⟨hb1, hb2, hb3, hb4⟩ := scanNumberBody_stuck h1b
    (by rw [hg]; exact hna) (by rw [hg]; exact hnd)
  refine ⟨hb1, ?_, ?_⟩
  · rw [hb2, hp1]
  · rw [hb3, hs1]

/-- A bare hexadecimal prefix whose follower is neither alphanumeric nor
a dot is a complete number: `scanNumber` succeeds having consumed just
`0x`/`0X`. -/
theorem scanNumber_prefix_only {l : Lexer} {x : Char} (h : l.pos ≤ l.input.length)
    (hr0 : l.input[l.pos]? = some '0') (hrx : l.input[l.pos + 1]? = some x)
    (hx : x ∈ (['x', 'X'] : List Char))
    (hna : isAlphaNumericOpt (l.input[l.pos + 2]?) = false)
    (hnd : l.input[l.pos + 2]? ≠ some '.') :
    (scanNumber l).1 = true ∧ (scanNumber l).2.pos = l.pos + 2 ∧
    (scanNumber l).2.start = l.start := by
  unfold scanNumber
  obtain ⟨hf0, hS0⟩ := sameAt_accept_false ['+', '-'] (sameAt_rfl l) (by
    intro c hc hm
    rw [hr0] at hc
    injection hc with hc
    subst hc
    exact absurd hm (by decide))
  rcases ha1 : accept ['+', '-'] l with ⟨b1, la1⟩
  rw [ha1] at hf0 hS0
  dsimp only at hf0 hS0
  subst hf0
  dsimp only
  unfold scanNumberBody
  have hr0a : la1.input[la1.pos]? = some '0' := by
    rw [SameAt.get hS0]
    exact hr0
  rcases ha2 : accept ['0'] la1 with ⟨b2, l2⟩
  have hx2 := accept_mem hr0a (by decide : ('0' : Char) ∈ (['0'] : List Char))
  rw [ha2] at hx2
  injection hx2 with hb2 hl2
  subst hb2
  dsimp only
  obtain ⟨c2, _, _, hi2, hp2, hs2, _⟩ := accept_eq_true_parts ha2
  have hp2a : l2.pos = l.pos + 1 := by
    rw [hp2, hS0.2.1]
  have hi2a : l2.input = l.input := by
    rw [hi2, hS0.1]
  have hs2a : l2.start = l.start := by
    rw [hs2, hS0.2.2]
  unfold scanNumberBase
  have hrxa : l2.input[l2.pos]? = some x := by
    rw [hi2a, hp2a]
    exact hrx
  rcases ha3 : accept ['x', 'X'] l2 with ⟨b3, l3⟩
  have hx3 := accept_mem hrxa hx
  rw [ha3] at hx3
  injection hx3 with hb3 hl3
  subst hb3
  dsimp only
  obtain ⟨c3, _, _, hi3, hp3, hs3, _⟩ := accept_eq_true_parts ha3
  have hp3a : l3.pos = l.pos + 2 := by
    rw [hp3, hp2a]
  have hi3a : l3.input = l.input := by
    rw [hi3, hi2a]
  have hs3a : l3.start = l.start := by
    rw [hs3, hs2a]
  have hlt2 : l.pos + 1 < l.input.length := (List.getElem?_eq_some.mp hrx).1
  have h3b : l3.pos ≤ l3.input.length := by
    rw [hi3a, hp3a]
    omega
  have hg3 : l3.input[l3.pos]? = l.input[l.pos + 2]? := by
    rw [hi3a, hp3a]
  obtain ⟨ht1, ht2, ht3, ht4⟩ := scanNumberTail_stuck hexDigits h3b (by decide)
    (by rw [hg3]; exact hna) (by rw [hg3]; exact hnd)
  refine ⟨ht1, ?_, ?_⟩
  · rw [ht2, hp3a]
  · rw [ht3, hs3a]

end GoDb

namespace GoDb

/-- C10 (amended): `scanNumber` requires no digit — a lone sign `+`/`-`,
or the bare hexadecimal prefix `0x`/`0X`, followed by a rune that is
neither a letter, digit, underscore nor a dot, scans as a complete
number: the scanner succeeds having consumed exactly the sign (resp. the
prefix), the consumed slice being just that text; the concrete scan of
`select +, -, 0x from t;` emits exactly those Number tokens. A dot
follower is instead consumed into the literal (see the
counterexample). -/
theorem C10_amended :
    (∀ (l : Lexer) (c : Char), l.input[l.pos]? = some c →
      c ∈ (['+', '-'] : List Char) →
      isAlphaNumericOpt (l.input[l.pos + 1]?) = false →
      l.input[l.pos + 1]? ≠ some '.' →
      (scanNumber l).1 = true ∧ (scanNumber l).2.pos = l.pos + 1 ∧
      (scanNumber l).2.start = l.start ∧
      seg l.input l.pos ((scanNumber l).2.pos) = [c]) ∧
    (∀ (l : Lexer) (x : Char), l.input[l.pos]? = some '0' →
      l.input[l.pos + 1]? = some x → x ∈ (['x', 'X'] : List Char) →
      isAlphaNumericOpt (l.input[l.pos + 2]?) = false →
      l.input[l.pos + 2]? ≠ some '.' →
      (scanNumber l).1 = true ∧ (scanNumber l).2.pos = l.pos + 2 ∧
      (scanNumber l).2.start = l.start ∧
      seg l.input l.pos ((scanNumber l).2.pos) = ['0', x]) ∧
    lexAll "select +, -, 0x from t;".toList =
      [⟨.itemSelect, 0, .text "select".toList, 1⟩,
       ⟨.itemNumber, 7, .text "+".toList, 1⟩,
       ⟨.itemComma, 8, .text ",".toList, 1⟩,
       ⟨.itemNumber, 10, .text "-".toList, 1⟩,
       ⟨.itemComma, 11, .text ",".toList, 1⟩,
       ⟨.itemNumber, 13, .text "0x".toList, 1⟩,
       ⟨.itemFrom, 16, .text "from".toList, 1⟩,
       ⟨.itemIdentifier, 21, .text "t".toList, 1⟩,
       ⟨.itemEOF, 22, .text ";".toList, 1⟩] := by
  refine ⟨?_, ?_, by decide⟩
  · intro l c hr hc hna hnd
    have h : l.pos ≤ l.input.length := by
      have := (List.getElem?_eq_some.mp hr).1
      omega
    obtain ⟨h1, h2, h3⟩ := scanNumber_sign_only h hr hc hna hnd
    refine ⟨h1, h2, h3, ?_⟩
    rw [h2]
    exact seg_one hr
  · intro l x hr0 hrx hx hna hnd
    have h : l.pos ≤ l.input.length := by
      have := (List.getElem?_eq_some.mp hr0).1
      omega
    obtain ⟨h1, h2, h3⟩ := scanNumber_prefix_only h hr0 hrx hx hna hnd
    refine ⟨h1, h2, h3, ?_⟩
    rw [h2]
    exact seg_two hr0 hrx

/-- C10 (counterexample): the dot is not a letter, digit or underscore,
yet after a lone `+` the scanner consumes it — `select +. from t;` emits
a Number token whose text is `+.`, not just the sign, refuting the
claim for the follower `'.'`. -/
theorem C10_counterexample :
    isAlphaNumeric '.' = false ∧
    (lexAll "select +. from t;".toList)[1]? =
      some ⟨.itemNumber, 7, .text ['+', '.'], 1⟩ ∧
    (['+', '.'] : List Char) ≠ ['+'] := by
  refine ⟨by decide, by decide, by decide⟩

end GoDb
